/-
Verification development for the CareerSightAI job-recommendation core.

This file gives a shallow embedding, in Lean 4, of the algorithmic core of the
repository:

  * `utils/data_processor.py`  (Corpus Normalizer): `DataProcessor.process_jobs`
    and its helpers `_clean_job_title`, `_process_salary`, `_process_experience`,
    `_clean_skills`, `_clean_location`;
  * `utils/recommendation_engine.py` (Text Vector Index, Recommendation Ranker,
    Skill Gap Analyzer): `RecommendationEngine.get_recommendations`,
    `_apply_filters`, `_extract_experience_years`, `_generate_match_explanation`,
    `analyze_skill_gaps`, `_skills_similar`, `get_similar_jobs`.

Modelling conventions, used throughout:

  * Python strings are Lean `String`s; the ASCII fragments of `str.lower()`,
    `str.upper()`, `str.title()`, `str.strip()` and of the regexes `\s+`,
    `\d+`, `\d+(?:\.\d+)?` are modelled character by character (the corpus
    data of this repository is ASCII).
  * Python floats are modelled as exact rationals `ℚ` where the code only does
    field arithmetic and comparisons, and as reals `ℝ` where the TF-IDF
    pipeline applies `log` and `sqrt`.
  * A pandas `DataFrame` of job postings is a `List JobRecord`; a missing
    column and a `NaN` cell are both `Option.none` (a column is "present" when
    some record carries a value, mirroring `'salary' in df.columns` for frames
    built from a list of dicts).  Comparisons against `NaN` are `false`, as in
    pandas.
  * `np.random.uniform`/`np.random.choice` draw from an explicit stream
    `u : ℕ → ℚ` of unit-interval samples together with a cursor `off : ℕ`
    that advances with every batch of draws, mirroring numpy's global
    generator state.
  * `DataFrame.sort_values(..., ascending=False)` and `np.argsort` run with
    the default `kind='quicksort'` (numpy introsort), which is documented
    unstable: once a partition exceeds the small insertion-sort threshold,
    equal keys are scrambled.  The order of equal scores is therefore NOT
    specified by the program.  These call sites are treated relationally: the
    contract `descSortOf` states only that the result is a permutation of the
    rows that is non-increasing in the key, and the theorems about these code
    paths quantify over every outcome the contract admits.  The executable
    `sortDescBy` (stable descending insertion) is kept as one admissible
    outcome, used for concrete witnesses; nothing proved about the unstable
    paths depends on its tie order.  Python's `sorted(..., reverse=True)`
    (Timsort, used on the skill-frequency pairs of `analyze_skill_gaps`) IS
    documented stable — equal keys keep their original order even with
    `reverse=True` — and is modelled exactly by `sortDescBy`.
  * `Series.str.contains(pat, case=False, na=False)` keeps its default
    `regex=True`, so the pattern reaches Python's regex engine.  On a pattern
    free of regex metacharacters the compiled regex is a literal and matching
    is exactly case-insensitive substring search, modelled by `strContainsCI`;
    on other patterns `re.compile` may raise `re.error` or match by regex
    rather than substring semantics, so the behaviour is modelled relationally
    (`contains_ok`): an abstract pattern compiler, pinned to the substring
    matcher on metacharacter-free patterns (`regexLiteralOkB`) and
    unconstrained — including failure — elsewhere.
  * `TfidfVectorizer.fit_transform` raises sklearn's empty-vocabulary
    `ValueError` inside the constructor when no document yields a token; the
    model's scoring definitions are total, so theorems that speak about a
    constructed engine carry the nonempty-vocabulary precondition explicitly.
  * The scikit-learn `TfidfVectorizer(stop_words='english', ngram_range=(1,2),
    max_features=5000, lowercase=True)` is modelled at the level of token
    multisets: a document is its token list, the fitted vocabulary is an
    arbitrary list of terms (stop-word removal, bigram formation and the
    5000-feature cap only decide which terms are in that list, so theorems
    quantify over it), term frequency is the token count, and the smoothed
    idf is `log((1+n)/(1+df)) + 1` with non-negative weights.  `transform`
    projects a query into the fitted vocabulary (out-of-vocabulary terms
    contribute zero) and `sklearn.preprocessing.normalize` — used both by the
    vectorizer's l2 norm and by `cosine_similarity` — replaces a zero norm by 1
    instead of dividing by zero.
-/
import Mathlib

/-! ### ASCII character and string utilities (Python string methods) -/

/-- Whitespace characters of Python's `str.strip()` and of the regex class
`\s`, restricted to ASCII. -/
def isSpaceCh (c : Char) : Bool :=
  c = ' ' || c = '\t' || c = '\n' || c = '\r' || c = '\x0b' || c = '\x0c'

/-- Characters on which `re.split(r'[,;|]', ...)` splits in `_clean_skills`. -/
def isDelimCh (c : Char) : Bool :=
  c = ',' || c = ';' || c = '|'

/-- Word characters of the regex class `\w` (ASCII): used by the sklearn token
pattern. -/
def isWordCh (c : Char) : Bool :=
  c.isAlphanum || c = '_'

/-- Python `str.lower()` on a character list (ASCII). -/
def pyLowerL (l : List Char) : List Char :=
  l.map Char.toLower

/-- Python `str.lower()` (ASCII). -/
def pyLower (s : String) : String :=
  ⟨pyLowerL s.data⟩

/-- Python `str.strip()` on a character list. -/
def pyStripL (l : List Char) : List Char :=
  ((l.dropWhile isSpaceCh).reverse.dropWhile isSpaceCh).reverse

/-- Python `str.strip()`. -/
def pyStrip (s : String) : String :=
  ⟨pyStripL s.data⟩

/-- Helper for `re.sub(r'\s+', ' ', _)`: each maximal whitespace run becomes a
single blank.  The flag records whether the previous character was whitespace. -/
def squeezeAux : Bool → List Char → List Char
  | _, [] => []
  | prevWs, c :: cs =>
    if isSpaceCh c then
      (if prevWs then [] else [' ']) ++ squeezeAux true cs
    else
      c :: squeezeAux false cs

/-- `re.sub(r'\s+', ' ', l)` on a character list. -/
def squeezeL (l : List Char) : List Char :=
  squeezeAux false l

/-- Python `str.title()` on a character list (ASCII): the flag records whether
the previous character was cased.  A cased character after an uncased one is
uppercased, any other cased character is lowercased; uncased characters pass
through and reset the flag. -/
def titleAux : Bool → List Char → List Char
  | _, [] => []
  | prevCased, c :: cs =>
    if c.isAlpha then
      (if prevCased then c.toLower else c.toUpper) :: titleAux true cs
    else
      c :: titleAux false cs

/-- Python `str.title()` on a character list. -/
def pyTitleL (l : List Char) : List Char :=
  titleAux false l

/-- Python `str.title()`. -/
def pyTitle (s : String) : String :=
  ⟨pyTitleL s.data⟩

/-- Does `l` start with `pat`? -/
def startsWithL : List Char → List Char → Bool
  | [], _ => true
  | _ :: _, [] => false
  | p :: ps, c :: cs => p = c && startsWithL ps cs

/-- Python's substring test `pat in l` on character lists (the empty pattern is
contained in everything). -/
def containsSeq (pat : List Char) : List Char → Bool
  | [] => startsWithL pat []
  | c :: cs => startsWithL pat (c :: cs) || containsSeq pat cs

/-- Python's substring test `pat in hay` on strings. -/
def strContains (hay pat : String) : Bool :=
  containsSeq pat.data hay.data

/-- Case-insensitive substring test.  This is the semantics of
`Series.str.contains(pat, case=False, na=False)` exactly when `pat` contains
no regex metacharacter (`regexLiteralOkB`): `str.contains` defaults to
`regex=True`, and a metacharacter-free pattern compiles to a literal matcher.
On patterns with metacharacters the regex engine may raise `re.error` or match
by regex semantics; those patterns are outside this function's fidelity domain
and are handled relationally by `contains_ok` below. -/
def strContainsCI (hay pat : String) : Bool :=
  containsSeq (pyLowerL pat.data) (pyLowerL hay.data)

/-- `sep.join(tokens)` on character lists. -/
def joinSepL (sep : List Char) : List (List Char) → List Char
  | [] => []
  | [t] => t
  | t :: ts => t ++ sep ++ joinSepL sep ts

/-- Python `sep.join(strings)`. -/
def joinSepS (sep : String) : List String → String
  | [] => ""
  | [t] => t
  | t :: ts => t ++ sep ++ joinSepS sep ts

/-- `re.split` on a character class: split at every character satisfying `p`,
keeping empty pieces, as Python's `re.split(r'[,;|]', s)` and `s.split(',')`
do. -/
def splitOnPred (p : Char → Bool) : List Char → List (List Char)
  | [] => [[]]
  | c :: cs => if p c then [] :: splitOnPred p cs else (splitOnPred p cs).modifyHead (c :: ·)

/-- Python `s.split()` with no separator: maximal runs of non-whitespace,
empty pieces dropped.  The accumulator holds the current run, reversed. -/
def splitWsAux (cur : List Char) : List Char → List (List Char)
  | [] => if cur.isEmpty then [] else [cur.reverse]
  | c :: cs =>
    if isSpaceCh c then
      (if cur.isEmpty then [] else [cur.reverse]) ++ splitWsAux [] cs
    else
      splitWsAux (c :: cur) cs

/-- Python `s.split()` (whitespace split, no empty tokens). -/
def pySplitWs (s : String) : List String :=
  (splitWsAux [] s.data).map fun l => (⟨l⟩ : String)

/-- Maximal runs of word characters, used by the sklearn tokenizer model.  The
accumulator holds the current run, reversed. -/
def wordRunsAux (cur : List Char) : List Char → List (List Char)
  | [] => if cur.isEmpty then [] else [cur.reverse]
  | c :: cs =>
    if isWordCh c then
      wordRunsAux (c :: cur) cs
    else
      (if cur.isEmpty then [] else [cur.reverse]) ++ wordRunsAux [] cs

/-- The sklearn analyzer modelled at unigram level: lowercase, split into
maximal word-character runs and keep the runs of length ≥ 2 (token pattern
`\w\w+`).  Stop-word removal and bigram formation only change which terms the
fitted vocabulary holds and are covered by quantifying over the vocabulary. -/
def tokenize (s : String) : List String :=
  ((wordRunsAux [] (pyLowerL s.data)).filter (fun t => 2 ≤ t.length)).map
    fun l => (⟨l⟩ : String)

/-! ### Numeric token scanners (the regexes of `_process_salary` and
`_process_experience`) -/

/-- Value of a digit run. -/
def digitsVal (l : List Char) : ℕ :=
  l.foldl (fun a c => 10 * a + (c.toNat - 48)) 0

/-- Value of a fractional digit run. -/
def fracVal (l : List Char) : ℚ :=
  (digitsVal l : ℚ) / (10 : ℚ) ^ l.length

/-- `re.findall(r'(\d+(?:\.\d+)?)', _)`, fuel-indexed to keep the recursion
structural: every step either consumes fuel on one character or on a whole
matched token. -/
def floatScan : ℕ → List Char → List ℚ
  | 0, _ => []
  | _ + 1, [] => []
  | fuel + 1, c :: cs =>
    if c.isDigit then
      let ip := (c :: cs).takeWhile Char.isDigit
      let rest := (c :: cs).dropWhile Char.isDigit
      match rest with
      | '.' :: d :: ds =>
        if d.isDigit then
          ((digitsVal ip : ℚ) + fracVal ((d :: ds).takeWhile Char.isDigit)) ::
            floatScan fuel ((d :: ds).dropWhile Char.isDigit)
        else
          (digitsVal ip : ℚ) :: floatScan fuel rest
      | _ => (digitsVal ip : ℚ) :: floatScan fuel rest
    else
      floatScan fuel cs

/-- The numeric tokens of the salary field, in order of appearance. -/
def floatTokens (s : String) : List ℚ :=
  floatScan s.data.length s.data

/-- `re.findall(r'(\d+)', _)`: maximal digit runs, fuel-indexed. -/
def intScan : ℕ → List Char → List ℕ
  | 0, _ => []
  | _ + 1, [] => []
  | fuel + 1, c :: cs =>
    if c.isDigit then
      digitsVal ((c :: cs).takeWhile Char.isDigit) ::
        intScan fuel ((c :: cs).dropWhile Char.isDigit)
    else
      intScan fuel cs

/-- The integer tokens of the experience field, in order of appearance. -/
def intTokens (s : String) : List ℕ :=
  intScan s.data.length s.data

/-! ### Data model -/

/-- One row of the job table.  Raw input rows populate the free-text fields;
`process_jobs` fills the derived ones.  `none` stands both for a missing
column and for a `NaN` cell. -/
structure JobRecord where
  job_title : Option String := none
  company : Option String := none
  salary : Option String := none
  experience : Option String := none
  skills : Option String := none
  location : Option String := none
  description : Option String := none
  salary_min : Option ℚ := none
  salary_max : Option ℚ := none
  exp_min : Option ℤ := none
  exp_max : Option ℤ := none
  experience_level : Option String := none
  posted_date : Option ℕ := none
deriving Repr, DecidableEq

/-- The all-missing row. -/
def emptyRec : JobRecord := {}

/-! ### Corpus Normalizer (`utils/data_processor.py`) -/

/-- `DataProcessor._clean_job_title`: collapse whitespace after stripping, then
title-case; missing → `"Not Specified"`. -/
def clean_job_title : Option String → String
  | none => "Not Specified"
  | some t => pyTitle ⟨squeezeL (pyStripL t.data)⟩

/-- The inner `extract_salary_range` of `DataProcessor._process_salary`: two or
more numeric tokens give `(first, second)` in order of appearance, one token
`v` gives `(v, v * 1.2)`, none gives missing values. -/
def extract_salary_range : Option String → Option ℚ × Option ℚ
  | none => (none, none)
  | some s =>
    match floatTokens (pyLower s) with
    | a :: b :: _ => (some a, some b)
    | [a] => (some a, some (a * (6 / 5)))
    | [] => (none, none)

/-- The inner `extract_experience_range` of `DataProcessor._process_experience`:
two or more integer tokens give `(first, second)`, one token `v` gives
`(v, v + 2)`, none gives the entry-level default `(0, 2)`; a missing field
stays missing. -/
def extract_experience_range : Option String → Option ℤ × Option ℤ
  | none => (none, none)
  | some s =>
    match intTokens (pyLower s) with
    | a :: b :: _ => (some (a : ℤ), some (b : ℤ))
    | [a] => (some (a : ℤ), some ((a : ℤ) + 2))
    | [] => (some 0, some 2)

/-- The inner `get_experience_level` of `DataProcessor._process_experience`:
band by the average of the bounds, with average 2 when either bound is
missing. -/
def get_experience_level (emin emax : Option ℤ) : String :=
  let avg : ℚ :=
    match emin, emax with
    | some a, some b => ((a : ℚ) + (b : ℚ)) / 2
    | _, _ => 2
  if avg ≤ 2 then "Entry Level (0-2 years)"
  else if avg ≤ 5 then "Mid Level (3-5 years)"
  else if avg ≤ 10 then "Senior Level (6-10 years)"
  else "Expert Level (10+ years)"

/-- `DataProcessor._clean_skills`: split on `,`/`;`/`|`, strip and title-case
each piece, keep pieces longer than one character, rejoin with `", "`;
missing → `""`. -/
def clean_skills : Option String → String
  | none => ""
  | some s =>
    let toks := (splitOnPred isDelimCh s.data).map fun t => pyTitleL (pyStripL t)
    ⟨joinSepL (", ".data) (toks.filter fun t => 1 < t.length)⟩

/-- The city alias table of `DataProcessor._clean_location`, in insertion
order. -/
def cityPairs : List (String × String) :=
  [("bengaluru", "Bangalore"), ("mumbai", "Mumbai"), ("delhi", "Delhi"),
   ("hyderabad", "Hyderabad"), ("pune", "Pune"), ("chennai", "Chennai"),
   ("kolkata", "Kolkata"), ("gurgaon", "Gurgaon"), ("noida", "Noida")]

/-- `DataProcessor._clean_location`: first alias key contained in the
lowercased, stripped location wins; otherwise title-case; missing →
`"Not Specified"`. -/
def clean_location : Option String → String
  | none => "Not Specified"
  | some s =>
    let t := pyStrip s
    match cityPairs.find? (fun p => strContains (pyLower t) p.1) with
    | some p => p.2
    | none => pyTitle t

/-- `np.random.uniform(a, b)` from one unit-interval draw. -/
def uniformQ (u a b : ℚ) : ℚ :=
  a + (b - a) * u

/-- `np.random.choice(l)` from one unit-interval draw. -/
def choiceQ (l : List ℤ) (u : ℚ) : ℤ :=
  l.getD (⌊u * (l.length : ℚ)⌋).toNat 0

/-- Pair each element with its position, starting at `n`. -/
def withIdx : ℕ → List α → List (ℕ × α)
  | _, [] => []
  | n, x :: xs => (n, x) :: withIdx (n + 1) xs

/-- The title-cleaning pass of `process_jobs`
(`df['job_title'].apply(self._clean_job_title)`). -/
def title_stage (l : List JobRecord) : List JobRecord :=
  l.map fun r => { r with job_title := some (clean_job_title r.job_title) }

/-- `DataProcessor._process_salary`: per-row extraction when the `salary`
column is present, otherwise `np.random.uniform(3, 15)` minima scaled by
`np.random.uniform(1.2, 2.0)`. -/
def salary_stage (u : ℕ → ℚ) (off n : ℕ) (hasSal : Bool) (l : List JobRecord) :
    List JobRecord :=
  if hasSal then
    l.map fun r =>
      let p := extract_salary_range r.salary
      { r with salary_min := p.1, salary_max := p.2 }
  else
    (withIdx 0 l).map fun q =>
      let smin := uniformQ (u (off + q.1)) 3 15
      { q.2 with
          salary_min := some smin,
          salary_max := some (smin * uniformQ (u (off + n + q.1)) (6 / 5) 2) }

/-- The range half of `DataProcessor._process_experience`: per-row extraction
when the `experience` column is present, otherwise random choices
`np.random.choice([0,1,2,3,5,8])` and a random gap from `[2,3,4,5]`. -/
def experience_stage (u : ℕ → ℚ) (off1 n : ℕ) (hasExp : Bool) (l : List JobRecord) :
    List JobRecord :=
  if hasExp then
    l.map fun r =>
      let p := extract_experience_range r.experience
      { r with exp_min := p.1, exp_max := p.2 }
  else
    (withIdx 0 l).map fun q =>
      let emin := choiceQ [0, 1, 2, 3, 5, 8] (u (off1 + q.1))
      { q.2 with
          exp_min := some emin,
          exp_max := some (emin + choiceQ [2, 3, 4, 5] (u (off1 + n + q.1))) }

/-- The remaining deterministic passes: the derived `experience_level`
band, skills cleaning and location cleaning. -/
def finish_stage (l : List JobRecord) : List JobRecord :=
  l.map fun r =>
    { r with
        experience_level := some (get_experience_level r.exp_min r.exp_max),
        skills := some (clean_skills r.skills),
        location := some (clean_location r.location) }

/-- The `posted_date` default: set every row to `now` only when the column is
absent. -/
def date_stage (hasDate : Bool) (now : ℕ) (l : List JobRecord) : List JobRecord :=
  if hasDate then l else l.map fun r => { r with posted_date := some now }

/-- `DataProcessor.process_jobs`.  `u`/`off` are the numpy draw stream and its
cursor (advanced and returned, since the global generator keeps its state
between calls), `now` is `pd.Timestamp.now()`.  Columns are processed exactly
as in the source: titles are cleaned; salary bounds are extracted from the
`salary` column when it is present and drawn at random otherwise; experience
bounds likewise, followed by the derived `experience_level`; skills and
location are cleaned; `posted_date` is set to `now` only when the column is
absent. -/
def process_jobs (u : ℕ → ℚ) (off now : ℕ) (records : List JobRecord) :
    List JobRecord × ℕ :=
  let n := records.length
  let hasSal := records.any fun r => r.salary.isSome
  let off1 := if hasSal then off else off + 2 * n
  let hasExp := records.any fun r => r.experience.isSome
  let off2 := if hasExp then off1 else off1 + 2 * n
  let hasDate := records.any fun r => r.posted_date.isSome
  (date_stage hasDate now
    (finish_stage
      (experience_stage u off1 n hasExp
        (salary_stage u off n hasSal
          (title_stage records)))), off2)

/-! ### Text Vector Index (sklearn TF-IDF model) -/

/-- `RecommendationEngine._combine_job_features`: title twice (Python string
repetition), then skills, company and description, joined by blanks; missing
fields are skipped (`pd.notna` guards). -/
def combine_job_features (j : JobRecord) : String :=
  joinSepS " " (List.flatten
    [match j.job_title with | some t => [t ++ t] | none => [],
     match j.skills with | some s => [s] | none => [],
     match j.company with | some c => [c] | none => [],
     match j.description with | some d => [d] | none => []])

/-- Number of documents containing a term. -/
def docFreq (docs : List (List String)) (t : String) : ℕ :=
  docs.countP fun d => d.contains t

/-- Smoothed inverse document frequency of sklearn's `TfidfVectorizer`
(`smooth_idf=True`): `log((1+n)/(1+df)) + 1`. -/
noncomputable def idfWeight (docs : List (List String)) (t : String) : ℝ :=
  Real.log ((1 + docs.length) / (1 + docFreq docs t)) + 1

/-- TF-IDF weight of term `t` in token list `d`: raw count times idf. -/
noncomputable def tfidfWeight (docs : List (List String)) (d : List String) (t : String) : ℝ :=
  (d.count t : ℝ) * idfWeight docs t

/-- Inner product of the TF-IDF vectors of `x` and `y` over the fitted
vocabulary `vocabL` (projection: terms outside `vocabL` contribute zero). -/
noncomputable def dotTfidf (vocabL : List String) (docs : List (List String))
    (x y : List String) : ℝ :=
  ∑ t ∈ vocabL.toFinset, tfidfWeight docs x t * tfidfWeight docs y t

/-- The zero-norm guard of `sklearn.preprocessing.normalize`: a zero norm is
replaced by `1`, so zero vectors stay zero instead of raising a
division-by-zero error. -/
noncomputable def normGuard (r : ℝ) : ℝ :=
  if r = 0 then 1 else r

/-- `sklearn.metrics.pairwise.cosine_similarity` of the TF-IDF vectors of `q`
and `d`: the inner product of the two vectors after `normalize` (zero norms
guarded to 1).  The vectorizer's own l2 normalization composes with this to
the same value, since normalizing twice equals normalizing once under the
guard. -/
noncomputable def cosSim (vocabL : List String) (docs : List (List String))
    (q d : List String) : ℝ :=
  dotTfidf vocabL docs q d /
    (normGuard (Real.sqrt (dotTfidf vocabL docs q q)) *
     normGuard (Real.sqrt (dotTfidf vocabL docs d d)))

/-- The fitted vocabulary as built from the corpus: every corpus term, first
occurrence first.  (The `max_features=5000` cap and stop-word list only shrink
this list; the theorems below quantify over arbitrary vocabularies.) -/
def buildVocab (docs : List (List String)) : List String :=
  docs.flatten.eraseDups

/-! ### Sorting

Python's `sorted(..., reverse=True)` (used on the skill-frequency pairs of
`analyze_skill_gaps`) is Timsort: documented stable, equal keys keep their
original order even under `reverse=True`.  `sortDescBy` (stable descending
insertion: a later row is inserted after every earlier row of equal key) is
its exact model.  `DataFrame.sort_values(ascending=False)` and `np.argsort`,
by contrast, default to `kind='quicksort'` (numpy introsort), which is
unstable — equal keys are scrambled once a partition outgrows the small
insertion-sort threshold — so for those call sites `sortDescBy` is only one
admissible outcome, kept for executability; the claims about them are stated
over the relational contract `descSortOf` instead, which leaves the order of
equal keys unconstrained. -/

/-- Insert `x` into a descending-sorted list, after all entries of equal key. -/
def insDescBy [LinearOrder κ] (key : α → κ) (x : α) : List α → List α
  | [] => [x]
  | h :: t => if key h < key x then x :: h :: t else h :: insDescBy key x t

/-- Stable descending insertion sort: the exact model of Python's
`sorted(..., reverse=True)`, and one admissible outcome of the unstable
`sort_values(ascending=False)`. -/
def sortDescBy [LinearOrder κ] (key : α → κ) (l : List α) : List α :=
  l.foldl (fun acc x => insDescBy key x acc) []

/-- Insert `x` into an ascending-sorted list, after all entries of equal key. -/
def insAscBy [LinearOrder κ] (key : α → κ) (x : α) : List α → List α
  | [] => [x]
  | h :: t => if key x < key h then x :: h :: t else h :: insAscBy key x t

/-- Ascending insertion sort: one admissible outcome of `np.argsort` with the
default unstable kind (no claim below depends on its tie order). -/
def sortAscBy [LinearOrder κ] (key : α → κ) (l : List α) : List α :=
  l.foldl (fun acc x => insAscBy key x acc) []

/-! ### Recommendation Ranker (`utils/recommendation_engine.py`) -/

/-- One row of the scored recommendations frame: the posting, its corpus
index (the pandas row label), its `compatibility_score` column and its
`match_explanation` column. -/
structure RecRow where
  idx : ℕ
  job : JobRecord
  score : ℝ
  expl : String

/-- `RecommendationEngine._extract_experience_years`: representative years for
a requested band label, by case-sensitive substring tests; unrecognized labels
give `none`. -/
def extract_experience_years (experience_level : String) : Option ℤ :=
  if strContains experience_level "Entry" then some 1
  else if strContains experience_level "Mid" then some 4
  else if strContains experience_level "Senior" then some 8
  else if strContains experience_level "Expert" then some 12
  else none

/-- The location filter of `_apply_filters`: Python truthiness (`None` and
`""` disable it), `"Any"` disables it, `"Remote"` keeps postings whose
location contains "Remote" case-insensitively, any other city keeps exact
matches and remote postings.  Comparisons against a `NaN` location are
`false`. -/
def location_filter (location : Option String) (rows : List RecRow) : List RecRow :=
  match location with
  | none => rows
  | some loc =>
    if loc = "" || loc = "Any" then rows
    else if loc = "Remote" then
      rows.filter fun r =>
        match r.job.location with
        | some l => strContainsCI l "Remote"
        | none => false
    else
      rows.filter fun r =>
        match r.job.location with
        | some l => l = loc || strContainsCI l "Remote"
        | none => false

/-- The experience filter of `_apply_filters`: map the band label to
representative years and keep postings whose interval contains that value;
unrecognized labels (and falsy ones) disable the filter. -/
def experience_filter (experience_level : Option String) (rows : List RecRow) : List RecRow :=
  match experience_level with
  | none => rows
  | some lvl =>
    if lvl = "" then rows
    else
      match extract_experience_years lvl with
      | some y =>
        rows.filter fun r =>
          (match r.job.exp_min with | some a => decide (a ≤ y) | none => false) &&
          (match r.job.exp_max with | some b => decide (y ≤ b) | none => false)
      | none => rows

/-- The salary filter of `_apply_filters`: applied only when both bounds are
supplied (`is not None`), keeping postings whose band overlaps the requested
band. -/
def salary_filter (salary_min salary_max : Option ℚ) (rows : List RecRow) : List RecRow :=
  match salary_min, salary_max with
  | some fmin, some fmax =>
    rows.filter fun r =>
      (match r.job.salary_max with | some b => decide (fmin ≤ b) | none => false) &&
      (match r.job.salary_min with | some a => decide (a ≤ fmax) | none => false)
  | _, _ => rows

/-- `RecommendationEngine._apply_filters` on the scored frame: location, then
experience level, then salary band. -/
def apply_filters (location experience_level : Option String)
    (salary_min salary_max : Option ℚ) (rows : List RecRow) : List RecRow :=
  salary_filter salary_min salary_max
    (experience_filter experience_level (location_filter location rows))

/-- The salary-band overlap predicate in the words of the specification: a
posting passes iff `posting.salaryMax ≥ filterMin` and
`posting.salaryMin ≤ filterMax` (missing bounds fail the comparison, as every
pandas comparison with `NaN` does). -/
def salaryOverlapSpec (j : JobRecord) (fmin fmax : ℚ) : Bool :=
  (match j.salary_max with | some b => decide (b ≥ fmin) | none => false) &&
  (match j.salary_min with | some a => decide (a ≤ fmax) | none => false)

/-- The user skills found in the posting's skills text by
`_generate_match_explanation` (case-insensitive substring, in user order). -/
def matching_skills_of (j : JobRecord) (userSkills : List String) : List String :=
  userSkills.filter fun sk => strContains (pyLower (j.skills.getD "")) (pyLower sk)

/-- The first lowercased user skill of length > 3 contained in the lowercased
job title, if any (the `break`-terminated title loop). -/
def title_keyword_of (j : JobRecord) (userSkills : List String) : Option String :=
  ((userSkills.filter fun sk => 3 < sk.length).map pyLower).find? fun kw =>
    strContains (pyLower (j.job_title.getD "")) kw

/-- `RecommendationEngine._generate_match_explanation`: a skills fragment when
any skill matches, then a title fragment when any long-enough skill occurs in
the title, `"General profile match"` when neither, the first two fragments
joined with `" | "`. -/
def generate_match_explanation (j : JobRecord) (userSkills : List String) : String :=
  let ms := matching_skills_of j userSkills
  let e1 := if ms.isEmpty then [] else ["Matching skills: " ++ joinSepS ", " (ms.take 3)]
  let e2 :=
    match title_keyword_of j userSkills with
    | some kw => ["Title contains '" ++ kw ++ "'"]
    | none => []
  let es := e1 ++ e2
  let es' := if es.isEmpty then ["General profile match"] else es
  joinSepS " | " (es'.take 2)

/-- The scoring step of `RecommendationEngine.get_recommendations`: every
posting scored by cosine similarity of the blank-joined user skills against
the posting's combined text (`cosine_similarity(user_vector, job_vectors)`),
indexed by its corpus position (the pandas row label).  The definition is
total, but the real constructor raises sklearn's empty-vocabulary
`ValueError` when no posting yields a token — i.e. when
`buildVocab docs = []` — so theorems that speak about a constructed engine
carry that nonempty-vocabulary precondition. -/
noncomputable def scored_rows (jobs : List JobRecord) (user_skills : List String) :
    List RecRow :=
  let docs := jobs.map fun j => tokenize (combine_job_features j)
  let vocabL := buildVocab docs
  let qtoks := tokenize (joinSepS " " user_skills)
  (withIdx 0 jobs).map fun p =>
    { idx := p.1, job := p.2,
      score := cosSim vocabL docs qtoks (tokenize (combine_job_features p.2)),
      expl := "" }

/-- `RecommendationEngine.get_recommendations` continued: filter the scored
frame, sort by score descending, truncate to `top_n` and attach match
explanations.  This executable definition fixes the stable sort outcome; the
program's `sort_values` runs the default unstable quicksort, so the claims
about this path are stated over `recommendations_from` together with the
contract `descSortOf` below, which admits every outcome. -/
noncomputable def get_recommendations (jobs : List JobRecord) (user_skills : List String)
    (location experience_level : Option String) (salary_min salary_max : Option ℚ)
    (top_n : ℕ) : List RecRow :=
  let filtered := apply_filters location experience_level salary_min salary_max
    (scored_rows jobs user_skills)
  let sorted := sortDescBy (fun r : RecRow => r.score) filtered
  (sorted.take top_n).map fun r => { r with expl := generate_match_explanation r.job user_skills }

/-- The contract of `sort_values('compatibility_score', ascending=False)` with
the default `kind='quicksort'`: the result is some permutation of the rows
that is non-increasing in the score.  numpy's introsort is documented
unstable, so nothing more — in particular no tie order — is guaranteed;
theorems about this code path quantify over every `sorted` admitted here. -/
def descSortOf (rows sorted : List RecRow) : Prop :=
  List.Perm rows sorted ∧ sorted.Pairwise fun a b => b.score ≤ a.score

/-- The tail of `get_recommendations` after the sort, applied to an arbitrary
sort outcome: `head(top_n)` then the `match_explanation` column.
`get_recommendations` is this function at the stable outcome
(`get_recommendations_eq`). -/
noncomputable def recommendations_from (sorted : List RecRow) (user_skills : List String)
    (top_n : ℕ) : List RecRow :=
  (sorted.take top_n).map fun r => { r with expl := generate_match_explanation r.job user_skills }

/-- The scored frame before ranking, with all scores zero: the reference
object for the empty-skills claim (the filtered corpus carrying score 0
everywhere). -/
def indexed_rows (jobs : List JobRecord) : List RecRow :=
  (withIdx 0 jobs).map fun p => { idx := p.1, job := p.2, score := 0, expl := "" }

/-- `RecommendationEngine.get_similar_jobs`: an out-of-range `job_id` returns
the empty frame; otherwise rank all postings by similarity to the given one
(`np.argsort` ascending, reversed), drop the top entry and keep `top_n`.  The
ranking fixes one admissible outcome of the unstable default argsort; the
only property claimed of this function (the out-of-range guard) returns
before any sorting happens and is independent of it. -/
noncomputable def get_similar_jobs (jobs : List JobRecord) (job_id top_n : ℕ) : List RecRow :=
  if jobs.length ≤ job_id then []
  else
    let docs := jobs.map fun j => tokenize (combine_job_features j)
    let vocabL := buildVocab docs
    let sims := fun i => cosSim vocabL docs (docs.getD job_id []) (docs.getD i [])
    let order := (sortAscBy (fun i : ℕ => sims i) (List.range jobs.length)).reverse
    ((order.drop 1).take top_n).map fun i =>
      { idx := i, job := jobs.getD i emptyRec, score := sims i, expl := "" }

/-! ### Skill Gap Analyzer -/

/-- `RecommendationEngine._skills_similar`: equality for short tokens,
otherwise substring containment either way or a length difference of at most
two. -/
def skills_similar (s1 s2 : String) : Bool :=
  if s1.length < 3 || s2.length < 3 then s1 == s2
  else strContains s2 s1 || strContains s1 s2 ||
    decide (((s1.length : ℤ) - (s2.length : ℤ)).natAbs ≤ 2)

/-- Is the required skill held by any user skill (substring either direction
or the similarity heuristic)? -/
def skill_held (userLow : List String) (req : String) : Bool :=
  userLow.any fun us => strContains req us || strContains us req || skills_similar us req

/-- The comprehension `[skill.strip() for skill in str(s).split(',') if
skill.strip()]`. -/
def commaSkillTokens (s : String) : List String :=
  (((splitOnPred (fun c => c = ',') s.data).map pyStripL).filter
    (fun t => ¬ t.isEmpty)).map fun l => (⟨l⟩ : String)

/-- Postings whose title contains the pattern (case-insensitive). -/
def role_filter (jobs : List JobRecord) (pat : String) : List JobRecord :=
  jobs.filter fun j =>
    match j.job_title with
    | some t => strContainsCI t pat
    | none => false

/-- The keyword fallback loop of `analyze_skill_gaps`: the first keyword with
any match wins; when every keyword fails the loop leaves the last (empty)
filter result, equal to `[]`. -/
def fallback_role_jobs (jobs : List JobRecord) : List String → List JobRecord
  | [] => []
  | kw :: rest =>
    let r := role_filter jobs kw
    if r.isEmpty then fallback_role_jobs jobs rest else r

/-- Role-filtered postings: the full role string first, then the
whitespace-keyword fallback. -/
def role_jobs_for (jobs : List JobRecord) (role : String) : List JobRecord :=
  let first := role_filter jobs role
  if first.isEmpty then fallback_role_jobs jobs (pySplitWs (pyLower role)) else first

/-- All lowercased comma-tokens of the skills cells of the filtered postings
(`dropna` skips missing cells); their multiset gives the frequency table and
their first-occurrence deduplication the required-skill set.  (CPython
iterates the required-skill `set` in an unspecified order; the claims settled
below do not depend on that order.) -/
def roleSkillTokens (roleJobs : List JobRecord) : List String :=
  ((roleJobs.filterMap fun j => j.skills).map
    fun s => (commaSkillTokens s).map pyLower).flatten

/-- The report of `analyze_skill_gaps`. -/
structure GapReport where
  target_role : String
  total_role_jobs : ℕ
  existing_skills : List String
  missing_skills : List String
  skill_match_percentage : ℚ
deriving Repr, DecidableEq

/-- The report-building half of `analyze_skill_gaps`, from the role-filtered
postings onward (everything after the two `str.contains` filters).  The
missing skills are sorted by Python's `sorted(..., reverse=True)`, which is
Timsort and genuinely stable, so `sortDescBy` is its exact model here. -/
def gap_report_of (roleJobs : List JobRecord) (user_skills : List String)
    (target_role : String) : GapReport :=
  let required := (roleSkillTokens roleJobs).eraseDups
  let userLow := user_skills.map pyLower
  let held := required.filter fun rq => skill_held userLow rq
  let missing := (required.filter fun rq => ¬ skill_held userLow rq).map pyTitle
  let pairs := missing.map fun sk => (sk, (roleSkillTokens roleJobs).count (pyLower sk))
  { target_role := target_role
    total_role_jobs := roleJobs.length
    existing_skills := (held.map pyTitle).eraseDups
    missing_skills := (sortDescBy (fun p : String × ℕ => p.2) pairs).map Prod.fst
    skill_match_percentage := (held.length : ℚ) / (max required.length 1 : ℕ) * 100 }

/-- `RecommendationEngine.analyze_skill_gaps`, with `str.contains` specialized
to the literal-pattern matcher `strContainsCI` (adequate for metacharacter-free
roles; the error-aware model follows below). -/
def analyze_skill_gaps (jobs : List JobRecord) (user_skills : List String)
    (target_role : String) : GapReport :=
  gap_report_of (role_jobs_for jobs target_role) user_skills target_role

/-! #### The error-aware model of `Series.str.contains`

`str.contains(target_role, case=False, na=False)` keeps its default
`regex=True`, so the arbitrary user-supplied role is handed to Python's regex
engine.  The engine's behaviour is modelled by an abstract pattern compiler
`compile : String → Option (String → Bool)`: `none` models `re.error` raised
at `re.compile` (which aborts `analyze_skill_gaps` with an exception), `some
m` yields the row-level matcher.  The program pins the behaviour only on
metacharacter-free patterns, where the compiled regex is a literal and
matching is case-insensitive substring search; on other patterns the engine
may raise (`re.error`, e.g. an unbalanced `(` on every Python version, or
`C++` before Python 3.11) or match by regex semantics (`C++` compiles as a
possessive quantifier from Python 3.11 on), so the contract leaves those
patterns unconstrained. -/

/-- The regex metacharacters of Python's `re` module: a pattern containing
none of them compiles to a plain literal matcher. -/
def isReMetaCh (c : Char) : Bool :=
  c = '.' || c = '^' || c = '$' || c = '*' || c = '+' || c = '?' ||
  c = '\x7b' || c = '\x7d' || c = '[' || c = ']' || c = '\\' || c = '|' ||
  c = '(' || c = ')'

/-- Is the pattern free of regex metacharacters, so that `str.contains` with
`regex=True` degenerates to a substring test? -/
def regexLiteralOkB (pat : String) : Bool :=
  pat.data.all fun c => !isReMetaCh c

/-- The contract tying an abstract pattern compiler to the program: on every
metacharacter-free pattern it must succeed and match by case-insensitive
substring search.  Elsewhere it is unconstrained (it may fail, modelling
`re.error`, or match arbitrarily, modelling regex semantics). -/
def contains_ok (compile : String → Option (String → Bool)) : Prop :=
  ∀ pat, regexLiteralOkB pat = true →
    compile pat = some fun hay => strContainsCI hay pat

/-- `jobs_df['job_title'].str.contains(pat, case=False, na=False)` under an
abstract pattern compiler: `none` when the pattern does not compile, otherwise
the filtered postings (`na=False`: a missing title never matches). -/
def role_filter_with (compile : String → Option (String → Bool))
    (jobs : List JobRecord) (pat : String) : Option (List JobRecord) :=
  match compile pat with
  | none => none
  | some m =>
    some (jobs.filter fun j =>
      match j.job_title with
      | some t => m t
      | none => false)

/-- The keyword fallback loop of `analyze_skill_gaps` under an abstract
pattern compiler: the first keyword whose filter is nonempty wins; a keyword
that fails to compile aborts the call; when every keyword filter is empty the
loop leaves the last (empty) result. -/
def fallback_role_jobs_with (compile : String → Option (String → Bool))
    (jobs : List JobRecord) : List String → Option (List JobRecord)
  | [] => some []
  | kw :: rest =>
    match role_filter_with compile jobs kw with
    | none => none
    | some r =>
      if r.isEmpty then fallback_role_jobs_with compile jobs rest else some r

/-- Role-filtered postings under an abstract pattern compiler: the full role
string first, then the whitespace-keyword fallback. -/
def role_jobs_with (compile : String → Option (String → Bool))
    (jobs : List JobRecord) (role : String) : Option (List JobRecord) :=
  match role_filter_with compile jobs role with
  | none => none
  | some first =>
    if first.isEmpty then fallback_role_jobs_with compile jobs (pySplitWs (pyLower role))
    else some first

/-- `RecommendationEngine.analyze_skill_gaps` under an abstract pattern
compiler: `none` models the call aborting with `re.error`. -/
def analyze_skill_gaps_with (compile : String → Option (String → Bool))
    (jobs : List JobRecord) (user_skills : List String) (target_role : String) :
    Option GapReport :=
  (role_jobs_with compile jobs target_role).map fun rj =>
    gap_report_of rj user_skills target_role

/-- The pattern compiler that fails on every pattern carrying a regex
metacharacter and does literal matching otherwise: one behaviour consistent
with `contains_ok` (and the actual one for patterns that fail to compile). -/
def co0 (pat : String) : Option (String → Bool) :=
  if regexLiteralOkB pat = true then some fun hay => strContainsCI hay pat
  else none

/-! ### The engine constructor's copy (heap model for the frame-effect claim)

`RecommendationEngine.__init__` stores `jobs_df.copy()`.  To state what the
copy buys, dataframes live in an explicit store of tables addressed by
naturals: construction reads the caller's table and snapshots it at a fresh
address, which the engine keeps; the caller may later overwrite its own
address. -/

/-- A heap of job tables. -/
abbrev Store := List (List JobRecord)

/-- Dereference a table address. -/
def read_store (s : Store) (a : ℕ) : List JobRecord :=
  s.getD a []

/-- Mutate the table at an address. -/
def write_store (s : Store) (a : ℕ) (v : List JobRecord) : Store :=
  s.set a v

/-- `RecommendationEngine.__init__`: copy the caller's table to a fresh
address and remember that address. -/
def engine_init (s : Store) (a : ℕ) : Store × ℕ :=
  (s ++ [read_store s a], s.length)

/-! ### Claim-side predicates and concrete fixtures -/

/-- Does a salary pair satisfy the spec invariant `salaryMax ≥ salaryMin`
(vacuous for missing bounds)? -/
def salInvB (r : JobRecord) : Bool :=
  match r.salary_min, r.salary_max with
  | some a, some b => decide (a ≤ b)
  | _, _ => true

/-- Does an experience pair satisfy the spec invariant
`experienceMax ≥ experienceMin + 1` (vacuous for missing bounds)? -/
def expInvB (r : JobRecord) : Bool :=
  match r.exp_min, r.exp_max with
  | some a, some b => decide (a + 1 ≤ b)
  | _, _ => true

/-- Both normalizer invariants over a whole table. -/
def normInvariantsB (l : List JobRecord) : Bool :=
  l.all fun r => salInvB r && expInvB r

/-- Are the salary tokens of a raw record in non-decreasing order whenever
there are two of them (the amended premise of the salary invariant)? -/
def salTokensOkB (r : JobRecord) : Bool :=
  match r.salary with
  | none => true
  | some s =>
    match floatTokens (pyLower s) with
    | a :: b :: _ => decide (a ≤ b)
    | _ => true

/-- Do the experience tokens of a raw record gain at least one year from first
to second whenever there are two of them? -/
def expTokensOkB (r : JobRecord) : Bool :=
  match r.experience with
  | none => true
  | some s =>
    match intTokens (pyLower s) with
    | a :: b :: _ => decide (a + 1 ≤ b)
    | _ => true

/-- Unit draws for witnesses: the constant stream 1/2. -/
def uHalf : ℕ → ℚ := fun _ => 1 / 2

/-- Unit draws for the idempotence counterexample: zeros, then halves. -/
def uCex : ℕ → ℚ := fun n => if n < 4 then 0 else 1 / 2

/-- A raw record whose two-token salary and experience fields appear in
decreasing order. -/
def c1CexRec : JobRecord :=
  { salary := some "20-10 lakhs", experience := some "5-3 years" }

/-- A raw record with well-ordered two-token fields. -/
def c1WitRec : JobRecord :=
  { salary := some "10-20 lakhs", experience := some "1-5 years" }

/-- A posting matching the user skill in both its skills text and its title. -/
def c6Job : JobRecord :=
  { job_title := some "python developer", skills := some "python" }

/-- A one-posting corpus whose title matches no plumbing role. -/
def c7Jobs : List JobRecord :=
  [{ job_title := some "Data Scientist", skills := some "Python, SQL" }]

/-- First posting of the two-job ranking corpus. -/
def jobC2a : JobRecord :=
  { job_title := some "Python Developer", skills := some "Python, SQL" }

/-- Second posting of the two-job ranking corpus. -/
def jobC2b : JobRecord :=
  { job_title := some "Data Analyst", skills := some "SQL" }

/-- A two-posting corpus with real text, so the fitted vocabulary is nonempty
and the constructor raises no empty-vocabulary error. -/
def jobsC2 : List JobRecord := [jobC2a, jobC2b]

/-- A one-table store. -/
def c9Store : Store := [[emptyRec]]

/-- A scored row whose posting has the salary band (10, 20). -/
def band10to20 : RecRow :=
  { idx := 0, job := { salary_min := some 10, salary_max := some 20 }, score := 0, expl := "" }

/-- The whole per-record work of `process_jobs` when the `salary` and
`experience` columns are both present: title cleaning, both extractions, the
derived level, skills and location cleaning (everything except the
`posted_date` default, which acts at table level). -/
def passRec (r : JobRecord) : JobRecord :=
  let r1 := { r with job_title := some (clean_job_title r.job_title) }
  let r2 := { r1 with salary_min := (extract_salary_range r1.salary).1,
                      salary_max := (extract_salary_range r1.salary).2 }
  let r3 := { r2 with exp_min := (extract_experience_range r2.experience).1,
                      exp_max := (extract_experience_range r2.experience).2 }
  { r3 with experience_level := some (get_experience_level r3.exp_min r3.exp_max),
            skills := some (clean_skills r3.skills),
            location := some (clean_location r3.location) }

/-- A raw one-record corpus with both the salary and the experience columns
present. -/
def c8recs : List JobRecord :=
  [{ job_title := some "data  engineer", salary := some "10-20 lakhs",
     experience := some "2-4 years", skills := some "python, sql",
     location := some "pune, india" }]

/-! ### Whitespace normal forms (proof infrastructure for idempotence) -/

/-- Does the list avoid starting with whitespace? -/
def headOkB (l : List Char) : Bool :=
  match l with
  | [] => true
  | c :: _ => !isSpaceCh c

/-- Does the list avoid ending with whitespace? -/
def lastOkB (l : List Char) : Bool :=
  headOkB l.reverse

/-- Remove trailing whitespace (the right half of `str.strip()`). -/
def rstripL (l : List Char) : List Char :=
  (l.reverse.dropWhile isSpaceCh).reverse

mutual

/-- State machine for squeezed text, in the state "the previous character was
part of a token": whitespace may follow only as a single blank that opens a
gap. -/
def gjTok : List Char → Bool
  | [] => true
  | c :: cs => if isSpaceCh c then c = ' ' && gjGap cs else gjTok cs

/-- State "the previous character was the single blank of a gap": a token
character must follow. -/
def gjGap : List Char → Bool
  | [] => false
  | c :: cs => !isSpaceCh c && gjTok cs

end

/-- Squeezed, stripped text: empty, or a non-blank head followed by tokens
separated by single blanks, without a trailing blank. -/
def goodWsB (l : List Char) : Bool :=
  match l with
  | [] => true
  | c :: cs => !isSpaceCh c && gjTok cs

/-- No delimiter characters (`,`/`;`/`|`) in the list. -/
def noDelimB (l : List Char) : Bool :=
  l.all fun c => !isDelimCh c

/-! ## Theorems

### Character-level facts about the ASCII case maps -/

lemma charToNat_ofNat {n : Nat} (h : n < 55296) : (Char.ofNat n).toNat = n := by
  rw [Char.ofNat, dif_pos (Or.inl h)]
  simp [Char.ofNatAux, Char.toNat, UInt32.toNat, BitVec.toNat_ofNatLt]

lemma toNat_toLower (c : Char) :
    (Char.toLower c).toNat = if 65 ≤ c.toNat ∧ c.toNat ≤ 90 then c.toNat + 32 else c.toNat := by
  rw [Char.toLower]
  split
  · exact charToNat_ofNat (by omega)
  · rfl

lemma toNat_toUpper (c : Char) :
    (Char.toUpper c).toNat = if 97 ≤ c.toNat ∧ c.toNat ≤ 122 then c.toNat - 32 else c.toNat := by
  rw [Char.toUpper]
  split
  · exact charToNat_ofNat (by omega)
  · rfl

lemma char_eq_of_toNat_eq {a b : Char} (h : a.toNat = b.toNat) : a = b :=
  Char.ext (UInt32.ext h)

lemma char_eq_iff_toNat {a b : Char} : a = b ↔ a.toNat = b.toNat :=
  ⟨fun h => h ▸ rfl, char_eq_of_toNat_eq⟩

lemma isAlpha_iff_toNat (c : Char) :
    c.isAlpha = true ↔ (65 ≤ c.toNat ∧ c.toNat ≤ 90) ∨ (97 ≤ c.toNat ∧ c.toNat ≤ 122) := by
  simp only [Char.isAlpha, Char.isUpper, Char.isLower, Bool.or_eq_true, Bool.and_eq_true,
    decide_eq_true_eq, ge_iff_le, UInt32.le_def, BitVec.le_def]
  exact Iff.rfl

lemma isSpaceCh_iff_toNat (c : Char) :
    isSpaceCh c = true ↔
      c.toNat = 32 ∨ c.toNat = 9 ∨ c.toNat = 10 ∨ c.toNat = 13 ∨ c.toNat = 11 ∨ c.toNat = 12 := by
  have h1 : (' ' : Char).toNat = 32 := rfl
  have h2 : ('\t' : Char).toNat = 9 := rfl
  have h3 : ('\n' : Char).toNat = 10 := rfl
  have h4 : ('\r' : Char).toNat = 13 := rfl
  have h5 : ('\x0b' : Char).toNat = 11 := rfl
  have h6 : ('\x0c' : Char).toNat = 12 := rfl
  simp only [isSpaceCh, Bool.or_eq_true, decide_eq_true_eq, char_eq_iff_toNat, h1, h2, h3, h4,
    h5, h6]
  tauto

lemma isDelimCh_iff_toNat (c : Char) :
    isDelimCh c = true ↔ c.toNat = 44 ∨ c.toNat = 59 ∨ c.toNat = 124 := by
  have h1 : (',' : Char).toNat = 44 := rfl
  have h2 : (';' : Char).toNat = 59 := rfl
  have h3 : ('|' : Char).toNat = 124 := rfl
  simp only [isDelimCh, Bool.or_eq_true, decide_eq_true_eq, char_eq_iff_toNat, h1, h2, h3]
  tauto

lemma bool_eq_of_iff {a b : Bool} (h : a = true ↔ b = true) : a = b := by
  cases a <;> cases b <;> simp_all

lemma isSpaceCh_toLower (c : Char) : isSpaceCh (Char.toLower c) = isSpaceCh c := by
  apply bool_eq_of_iff
  rw [isSpaceCh_iff_toNat, isSpaceCh_iff_toNat, toNat_toLower]
  split <;> omega

lemma isSpaceCh_toUpper (c : Char) : isSpaceCh (Char.toUpper c) = isSpaceCh c := by
  apply bool_eq_of_iff
  rw [isSpaceCh_iff_toNat, isSpaceCh_iff_toNat, toNat_toUpper]
  split <;> omega

lemma isDelimCh_toLower (c : Char) : isDelimCh (Char.toLower c) = isDelimCh c := by
  apply bool_eq_of_iff
  rw [isDelimCh_iff_toNat, isDelimCh_iff_toNat, toNat_toLower]
  split <;> omega

lemma isDelimCh_toUpper (c : Char) : isDelimCh (Char.toUpper c) = isDelimCh c := by
  apply bool_eq_of_iff
  rw [isDelimCh_iff_toNat, isDelimCh_iff_toNat, toNat_toUpper]
  split <;> omega

lemma isReMetaCh_iff_toNat (c : Char) :
    isReMetaCh c = true ↔
      c.toNat = 46 ∨ c.toNat = 94 ∨ c.toNat = 36 ∨ c.toNat = 42 ∨ c.toNat = 43 ∨
      c.toNat = 63 ∨ c.toNat = 123 ∨ c.toNat = 125 ∨ c.toNat = 91 ∨ c.toNat = 93 ∨
      c.toNat = 92 ∨ c.toNat = 124 ∨ c.toNat = 40 ∨ c.toNat = 41 := by
  have h1 : ('.' : Char).toNat = 46 := rfl
  have h2 : ('^' : Char).toNat = 94 := rfl
  have h3 : ('$' : Char).toNat = 36 := rfl
  have h4 : ('*' : Char).toNat = 42 := rfl
  have h5 : ('+' : Char).toNat = 43 := rfl
  have h6 : ('?' : Char).toNat = 63 := rfl
  have h7 : ('\x7b' : Char).toNat = 123 := rfl
  have h8 : ('\x7d' : Char).toNat = 125 := rfl
  have h9 : ('[' : Char).toNat = 91 := rfl
  have h10 : (']' : Char).toNat = 93 := rfl
  have h11 : ('\\' : Char).toNat = 92 := rfl
  have h12 : ('|' : Char).toNat = 124 := rfl
  have h13 : ('(' : Char).toNat = 40 := rfl
  have h14 : (')' : Char).toNat = 41 := rfl
  simp only [isReMetaCh, Bool.or_eq_true, decide_eq_true_eq, char_eq_iff_toNat, h1, h2, h3, h4,
    h5, h6, h7, h8, h9, h10, h11, h12, h13, h14]
  omega

lemma isReMetaCh_toLower (c : Char) : isReMetaCh (Char.toLower c) = isReMetaCh c := by
  apply bool_eq_of_iff
  rw [isReMetaCh_iff_toNat, isReMetaCh_iff_toNat, toNat_toLower]
  split <;> omega

lemma isAlpha_toLower (c : Char) : (Char.toLower c).isAlpha = c.isAlpha := by
  apply bool_eq_of_iff
  rw [isAlpha_iff_toNat, isAlpha_iff_toNat, toNat_toLower]
  split <;> omega

lemma isAlpha_toUpper (c : Char) : (Char.toUpper c).isAlpha = c.isAlpha := by
  apply bool_eq_of_iff
  rw [isAlpha_iff_toNat, isAlpha_iff_toNat, toNat_toUpper]
  split <;> omega

lemma toLower_toLower (c : Char) : Char.toLower (Char.toLower c) = Char.toLower c := by
  apply char_eq_of_toNat_eq
  rw [toNat_toLower, toNat_toLower]
  split_ifs <;> omega

lemma toUpper_toUpper (c : Char) : Char.toUpper (Char.toUpper c) = Char.toUpper c := by
  apply char_eq_of_toNat_eq
  rw [toNat_toUpper, toNat_toUpper]
  split_ifs <;> omega

lemma toLower_toUpper (c : Char) : Char.toLower (Char.toUpper c) = Char.toLower c := by
  apply char_eq_of_toNat_eq
  rw [toNat_toLower, toNat_toLower, toNat_toUpper]
  split_ifs <;> omega

lemma notSpace_of_isAlpha {c : Char} (h : c.isAlpha = true) : isSpaceCh c = false := by
  rw [isAlpha_iff_toNat] at h
  cases hs : isSpaceCh c
  · rfl
  · rw [isSpaceCh_iff_toNat] at hs
    omega

lemma notDelim_of_isAlpha {c : Char} (h : c.isAlpha = true) : isDelimCh c = false := by
  rw [isAlpha_iff_toNat] at h
  cases hs : isDelimCh c
  · rfl
  · rw [isDelimCh_iff_toNat] at hs
    omega

/-! ### C10: out-of-range `get_similar_jobs` -/

/-- Claim C10: for every `job_id` at or beyond the corpus size,
`get_similar_jobs` returns the empty frame (no out-of-bounds error), whatever
`top_n` is. -/
theorem c10_similar_jobs_out_of_range (jobs : List JobRecord) (job_id top_n : ℕ)
    (h : jobs.length ≤ job_id) : get_similar_jobs jobs job_id top_n = [] := by
  rw [get_similar_jobs, if_pos h]

/-- Witness for C10 at the empty corpus and `job_id = 0`. -/
theorem c10_witness : get_similar_jobs [] 0 5 = [] :=
  c10_similar_jobs_out_of_range [] 0 5 (by decide)

/-! ### C9: the constructor's copy shields the engine from caller mutation -/

/-- Claim C9: `__init__` copies the corpus (`jobs_df.copy()`), so overwriting
the caller's table after construction changes neither `get_recommendations`
nor `analyze_skill_gaps` results: both depend only on the snapshot taken at
construction time. -/
theorem c9_constructor_copies (s : Store) (a : ℕ) (h : a < s.length)
    (v : List JobRecord) (us : List String) (loc el : Option String)
    (smin smax : Option ℚ) (topn : ℕ) (role : String) :
    get_recommendations (read_store (write_store (engine_init s a).1 a v) (engine_init s a).2)
        us loc el smin smax topn
      = get_recommendations (read_store (engine_init s a).1 (engine_init s a).2)
          us loc el smin smax topn ∧
    analyze_skill_gaps (read_store (write_store (engine_init s a).1 a v) (engine_init s a).2)
        us role
      = analyze_skill_gaps (read_store (engine_init s a).1 (engine_init s a).2) us role := by
  have key : read_store (write_store (engine_init s a).1 a v) (engine_init s a).2
      = read_store (engine_init s a).1 (engine_init s a).2 := by
    show ((s ++ [read_store s a]).set a v).getD s.length [] = (s ++ [read_store s a]).getD s.length []
    rw [List.getD_eq_getElem?_getD, List.getD_eq_getElem?_getD,
      List.getElem?_set_ne (Nat.ne_of_lt h)]
  rw [key]
  exact ⟨rfl, rfl⟩

/-- Witness for C9: one caller table at address 0, overwritten after
construction. -/
theorem c9_witness :
    get_recommendations
        (read_store (write_store (engine_init c9Store 0).1 0 []) (engine_init c9Store 0).2)
        ["python"] none none none none 10
      = get_recommendations (read_store (engine_init c9Store 0).1 (engine_init c9Store 0).2)
          ["python"] none none none none 10 ∧
    analyze_skill_gaps
        (read_store (write_store (engine_init c9Store 0).1 0 []) (engine_init c9Store 0).2)
        ["python"] "data"
      = analyze_skill_gaps (read_store (engine_init c9Store 0).1 (engine_init c9Store 0).2)
          ["python"] "data" :=
  c9_constructor_copies c9Store 0 (by decide) [] ["python"] none none none none 10 "data"

/-! ### C5: the salary overlap filter -/

/-- Claim C5: with both salary bounds supplied, `_apply_filters` keeps exactly
the postings whose band overlaps the requested band
(`posting.salaryMax ≥ filterMin` and `posting.salaryMin ≤ filterMax`); the
posting with band (10, 20) passes the filter band (18, 25) and fails
(25, 30); with either bound missing no salary filtering occurs. -/
theorem c5_salary_overlap_filter (rows : List RecRow) (fmin fmax x : ℚ) :
    apply_filters none none (some fmin) (some fmax) rows
        = rows.filter (fun r => salaryOverlapSpec r.job fmin fmax) ∧
    apply_filters none none none (some x) rows = rows ∧
    apply_filters none none (some x) none rows = rows ∧
    apply_filters none none (some 18) (some 25) [band10to20] = [band10to20] ∧
    apply_filters none none (some 25) (some 30) [band10to20] = [] := by
  refine ⟨?_, rfl, rfl, ?_, ?_⟩
  · show salary_filter (some fmin) (some fmax) rows = _
    rw [salary_filter]
    exact List.filter_congr fun r _ => by rw [salaryOverlapSpec]
  · norm_num [apply_filters, location_filter, experience_filter, salary_filter, band10to20,
      List.filter]
  · norm_num [apply_filters, location_filter, experience_filter, salary_filter, band10to20,
      List.filter]

/-! ### C7: skill-gap analysis for a role with no matching postings -/

lemma fallback_role_jobs_eq_nil {jobs : List JobRecord} {kws : List String}
    (h : kws.all (fun kw => (role_filter jobs kw).isEmpty) = true) :
    fallback_role_jobs jobs kws = [] := by
  induction kws with
  | nil => rfl
  | cons kw rest ih =>
    rw [List.all_cons, Bool.and_eq_true] at h
    rw [fallback_role_jobs, if_pos h.1]
    exact ih h.2

lemma role_jobs_for_eq_nil {jobs : List JobRecord} {role : String}
    (h1 : role_filter jobs role = [])
    (h2 : (pySplitWs (pyLower role)).all (fun kw => (role_filter jobs kw).isEmpty) = true) :
    role_jobs_for jobs role = [] := by
  rw [role_jobs_for, h1]
  exact fallback_role_jobs_eq_nil h2

lemma mem_splitWsAux {c : Char} :
    ∀ (l cur t : List Char), t ∈ splitWsAux cur l → c ∈ t → c ∈ cur ∨ c ∈ l := by
  intro l
  induction l with
  | nil =>
    intro cur t ht hc
    rw [splitWsAux] at ht
    split at ht
    · exact absurd ht (List.not_mem_nil t)
    · rw [List.mem_singleton] at ht
      subst ht
      exact Or.inl (List.mem_reverse.mp hc)
  | cons d ds ih =>
    intro cur t ht hc
    rw [splitWsAux] at ht
    by_cases hd : isSpaceCh d = true
    · rw [if_pos hd, List.mem_append] at ht
      rcases ht with ht | ht
      · split at ht
        · exact absurd ht (List.not_mem_nil t)
        · rw [List.mem_singleton] at ht
          subst ht
          exact Or.inl (List.mem_reverse.mp hc)
      · rcases ih [] t ht hc with h | h
        · exact absurd h (List.not_mem_nil c)
        · exact Or.inr (List.mem_cons_of_mem d h)
    · rw [if_neg hd] at ht
      rcases ih (d :: cur) t ht hc with h | h
      · rw [List.mem_cons] at h
        rcases h with h | h
        · rw [h]
          exact Or.inr (List.mem_cons_self d ds)
        · exact Or.inl h
      · exact Or.inr (List.mem_cons_of_mem d h)

lemma regexLiteralOkB_keyword {role kw : String} (h : regexLiteralOkB role = true)
    (hkw : kw ∈ pySplitWs (pyLower role)) : regexLiteralOkB kw = true := by
  rw [regexLiteralOkB, List.all_eq_true] at h ⊢
  intro c hc
  rw [pySplitWs, List.mem_map] at hkw
  obtain ⟨t, ht, rfl⟩ := hkw
  have hct : c ∈ t := hc
  rcases mem_splitWsAux (pyLower role).data [] t ht hct with h0 | h0
  · exact absurd h0 (List.not_mem_nil c)
  · have hmem : c ∈ pyLowerL role.data := h0
    rw [pyLowerL, List.mem_map] at hmem
    obtain ⟨c', hc', rfl⟩ := hmem
    have hm := h c' hc'
    rw [isReMetaCh_toLower]
    exact hm

lemma role_filter_with_literal {compile : String → Option (String → Bool)}
    (hco : contains_ok compile) {pat : String} (hp : regexLiteralOkB pat = true)
    (jobs : List JobRecord) :
    role_filter_with compile jobs pat = some (role_filter jobs pat) := by
  rw [role_filter_with, hco pat hp]
  rfl

lemma fallback_role_jobs_with_literal {compile : String → Option (String → Bool)}
    (hco : contains_ok compile) (jobs : List JobRecord) :
    ∀ kws : List String, kws.all regexLiteralOkB = true →
      fallback_role_jobs_with compile jobs kws = some (fallback_role_jobs jobs kws) := by
  intro kws
  induction kws with
  | nil => intro _; rfl
  | cons kw rest ih =>
    intro h
    rw [List.all_cons, Bool.and_eq_true] at h
    rw [fallback_role_jobs_with, role_filter_with_literal hco h.1, fallback_role_jobs]
    show (if (role_filter jobs kw).isEmpty then fallback_role_jobs_with compile jobs rest
        else some (role_filter jobs kw))
      = some (if (role_filter jobs kw).isEmpty then fallback_role_jobs jobs rest
        else role_filter jobs kw)
    by_cases hr : (role_filter jobs kw).isEmpty = true
    · rw [if_pos hr, if_pos hr]
      exact ih h.2
    · rw [if_neg hr, if_neg hr]

lemma role_jobs_with_literal {compile : String → Option (String → Bool)}
    (hco : contains_ok compile) {role : String} (hrole : regexLiteralOkB role = true)
    (jobs : List JobRecord) :
    role_jobs_with compile jobs role = some (role_jobs_for jobs role) := by
  have hkws : (pySplitWs (pyLower role)).all regexLiteralOkB = true := by
    rw [List.all_eq_true]
    intro kw hkw
    exact regexLiteralOkB_keyword hrole hkw
  rw [role_jobs_with, role_filter_with_literal hco hrole, role_jobs_for]
  show (if (role_filter jobs role).isEmpty
        then fallback_role_jobs_with compile jobs (pySplitWs (pyLower role))
        else some (role_filter jobs role))
      = some (if (role_filter jobs role).isEmpty
        then fallback_role_jobs jobs (pySplitWs (pyLower role)) else role_filter jobs role)
  by_cases hr : (role_filter jobs role).isEmpty = true
  · rw [if_pos hr, if_pos hr]
    exact fallback_role_jobs_with_literal hco jobs _ hkws
  · rw [if_neg hr, if_neg hr]

/-- Claim C7, amended: restricted to target roles free of regex
metacharacters — where `str.contains` with its default `regex=True` provably
degenerates to case-insensitive substring search — a role matching no job
title, in full or by whitespace keyword, makes `analyze_skill_gaps` return
(rather than raise) a report with zero role jobs, no missing skills and a 0%
skill match, under every pattern compiler consistent with the program.  For
roles with metacharacters the pattern reaches Python's regex engine, which
may raise `re.error` instead (see the counterexample), so the claim's
universal no-error guarantee fails as stated. -/
theorem c7_empty_role_report (compile : String → Option (String → Bool))
    (hco : contains_ok compile) (jobs : List JobRecord) (us : List String) (role : String)
    (hrole : regexLiteralOkB role = true)
    (h1 : role_filter jobs role = [])
    (h2 : (pySplitWs (pyLower role)).all (fun kw => (role_filter jobs kw).isEmpty) = true) :
    analyze_skill_gaps_with compile jobs us role = some (analyze_skill_gaps jobs us role) ∧
    (analyze_skill_gaps jobs us role).total_role_jobs = 0 ∧
    (analyze_skill_gaps jobs us role).missing_skills = [] ∧
    (analyze_skill_gaps jobs us role).skill_match_percentage = 0 := by
  refine ⟨?_, ?_⟩
  · rw [analyze_skill_gaps_with, role_jobs_with_literal hco hrole]
    rfl
  · rw [analyze_skill_gaps, role_jobs_for_eq_nil h1 h2]
    refine ⟨rfl, rfl, ?_⟩
    show ((0 : ℚ) : ℚ) / ((max 0 1 : ℕ) : ℚ) * 100 = 0
    norm_num

/-- Witness for C7: the compiler that fails exactly on metacharacter patterns
is consistent with the contract; the role "plumber" is metacharacter-free and
matches nothing in a data-science corpus, and the call returns the zero
report. -/
theorem c7_witness :
    contains_ok co0 ∧
    regexLiteralOkB "plumber" = true ∧
    role_filter c7Jobs "plumber" = [] ∧
    (pySplitWs (pyLower "plumber")).all (fun kw => (role_filter c7Jobs kw).isEmpty) = true ∧
    (analyze_skill_gaps_with co0 c7Jobs ["python"] "plumber"
        = some (analyze_skill_gaps c7Jobs ["python"] "plumber") ∧
      (analyze_skill_gaps c7Jobs ["python"] "plumber").total_role_jobs = 0 ∧
      (analyze_skill_gaps c7Jobs ["python"] "plumber").missing_skills = [] ∧
      (analyze_skill_gaps c7Jobs ["python"] "plumber").skill_match_percentage = 0) := by
  have hco : contains_ok co0 := by
    intro pat hp
    rw [co0, if_pos hp]
  exact ⟨hco, by decide, by decide, by decide,
    c7_empty_role_report co0 hco c7Jobs ["python"] "plumber" (by decide) (by decide) (by decide)⟩

/-- Counterexample to C7 as stated: the role "C++ Developer" matches no title
of the corpus as a substring, in full or by keyword, so the claim promises the
zero report; but the role carries regex metacharacters, and under the
admissible compiler that fails on such patterns — the behaviour Python
exhibits when `re.compile` raises `re.error`, as it does on this pattern
before Python 3.11 — the call errs instead of returning a report. -/
theorem c7_counterexample :
    contains_ok co0 ∧
    role_filter c7Jobs "C++ Developer" = [] ∧
    (pySplitWs (pyLower "C++ Developer")).all
      (fun kw => (role_filter c7Jobs kw).isEmpty) = true ∧
    analyze_skill_gaps_with co0 c7Jobs ["python"] "C++ Developer" = none := by
  refine ⟨?_, by decide, by decide, by decide⟩
  intro pat hp
  rw [co0, if_pos hp]

/-! ### C6: the match explanation (corrected) -/

/-- Claim C6, amended: the skills fragment lists up to three matching user
skills; the title fragment is sought regardless of whether skills matched
(not only when none did, as the spec claims); when neither matcher fires the
explanation is exactly `"General profile match"`; the first two fragments are
joined with `" | "`. -/
theorem c6_match_explanation_cases (j : JobRecord) (us : List String) :
    (matching_skills_of j us = [] → title_keyword_of j us = none →
        generate_match_explanation j us = "General profile match") ∧
    (∀ kw, matching_skills_of j us = [] → title_keyword_of j us = some kw →
        generate_match_explanation j us = "Title contains '" ++ kw ++ "'") ∧
    (matching_skills_of j us ≠ [] → title_keyword_of j us = none →
        generate_match_explanation j us
          = "Matching skills: " ++ joinSepS ", " ((matching_skills_of j us).take 3)) ∧
    (∀ kw, matching_skills_of j us ≠ [] → title_keyword_of j us = some kw →
        generate_match_explanation j us
          = "Matching skills: " ++ joinSepS ", " ((matching_skills_of j us).take 3)
              ++ " | " ++ ("Title contains '" ++ kw ++ "'")) := by
  refine ⟨?_, ?_, ?_, ?_⟩
  · intro hm hk
    rw [generate_match_explanation, hm, hk]
    rfl
  · intro kw hm hk
    rw [generate_match_explanation, hm, hk]
    rfl
  · intro hm hk
    have hb : (matching_skills_of j us).isEmpty = false := List.isEmpty_eq_false.mpr hm
    rw [generate_match_explanation, hk, hb]
    rfl
  · intro kw hm hk
    have hb : (matching_skills_of j us).isEmpty = false := List.isEmpty_eq_false.mpr hm
    rw [generate_match_explanation, hk, hb]
    show joinSepS " | " (List.take 2 _) = _
    simp only [List.take, joinSepS]

/-- Witness for C6: a posting matching "python" in both skills and title takes
the fourth (both-fragments) case. -/
theorem c6_witness :
    generate_match_explanation c6Job ["python"]
      = "Matching skills: " ++ joinSepS ", " ((matching_skills_of c6Job ["python"]).take 3)
          ++ " | " ++ ("Title contains '" ++ "python" ++ "'") :=
  (c6_match_explanation_cases c6Job ["python"]).2.2.2 "python" (by decide) (by decide)

/-- Counterexample to C6 as stated: the title keyword is reported even though
a skill substring matched, so the explanation is not just the skills
fragment. -/
theorem c6_counterexample :
    generate_match_explanation c6Job ["python"]
        = "Matching skills: python | Title contains 'python'" ∧
    generate_match_explanation c6Job ["python"] ≠ "Matching skills: python" := by
  exact ⟨by decide, by decide⟩

/-! ### C1: the normalizer's range invariants (corrected) -/

lemma mem_withIdx_snd {α : Type} {p : ℕ × α} :
    ∀ {n : ℕ} {l : List α}, p ∈ withIdx n l → p.2 ∈ l := by
  intro n l
  induction l generalizing n with
  | nil => intro h; simp [withIdx] at h
  | cons x xs ih =>
    intro h
    rw [withIdx, List.mem_cons] at h
    rcases h with h | h
    · rw [h]; exact List.mem_cons_self _ _
    · exact List.mem_cons_of_mem _ (ih h)

lemma fracVal_nonneg (l : List Char) : 0 ≤ fracVal l :=
  div_nonneg (Nat.cast_nonneg _) (pow_nonneg (by norm_num) _)

lemma floatScan_nonneg : ∀ (fuel : ℕ) (l : List Char) (q : ℚ), q ∈ floatScan fuel l → 0 ≤ q := by
  intro fuel
  induction fuel with
  | zero => intro l q h; simp [floatScan] at h
  | succ m ih =>
    intro l q h
    match l with
    | [] => simp [floatScan] at h
    | c :: cs =>
      rw [floatScan] at h
      dsimp only at h
      split at h
      · split at h
        · split at h
          · rcases List.mem_cons.mp h with h' | h'
            · rw [h']; exact add_nonneg (Nat.cast_nonneg _) (fracVal_nonneg _)
            · exact ih _ _ h'
          · rcases List.mem_cons.mp h with h' | h'
            · rw [h']; exact Nat.cast_nonneg _
            · exact ih _ _ h'
        · rcases List.mem_cons.mp h with h' | h'
          · rw [h']; exact Nat.cast_nonneg _
          · exact ih _ _ h'
      · exact ih _ _ h

lemma salary_pair_of_tokens (toks : List ℚ) (hnn : ∀ q ∈ toks, 0 ≤ q)
    (hord : ∀ x y rest, toks = x :: y :: rest → x ≤ y) :
    ∀ a b,
      (match toks with
        | a :: b :: _ => (some a, some b)
        | [a] => (some a, some (a * (6 / 5)))
        | [] => ((none : Option ℚ), (none : Option ℚ))).1 = some a →
      (match toks with
        | a :: b :: _ => (some a, some b)
        | [a] => (some a, some (a * (6 / 5)))
        | [] => ((none : Option ℚ), (none : Option ℚ))).2 = some b → a ≤ b := by
  intro a b h1 h2
  rcases toks with _ | ⟨x, _ | ⟨y, rest⟩⟩
  · exact absurd h1 (by simp)
  · have hx : 0 ≤ x := hnn x (List.mem_cons_self x [])
    have ha : a = x := by simpa using h1.symm
    have hb : b = x * (6 / 5) := by simpa using h2.symm
    rw [ha, hb]
    nlinarith
  · have hxy : x ≤ y := hord x y rest rfl
    have ha : a = x := by simpa using h1.symm
    have hb : b = y := by simpa using h2.symm
    rw [ha, hb]
    exact hxy

lemma extract_salary_ok {r : JobRecord} (h : salTokensOkB r = true) :
    ∀ a b, (extract_salary_range r.salary).1 = some a →
      (extract_salary_range r.salary).2 = some b → a ≤ b := by
  intro a b h1 h2
  rw [salTokensOkB] at h
  rcases hs : r.salary with _ | s
  · rw [hs] at h1
    simp [extract_salary_range] at h1
  · rw [hs] at h h1 h2
    dsimp only at h
    refine salary_pair_of_tokens (floatTokens (pyLower s))
      (fun q hq => floatScan_nonneg _ _ q hq) ?_ a b h1 h2
    intro x y rest heq
    rw [heq] at h
    exact of_decide_eq_true h

lemma experience_pair_of_tokens (toks : List ℕ)
    (hord : ∀ x y rest, toks = x :: y :: rest → x + 1 ≤ y) :
    ∀ a b,
      (match toks with
        | a :: b :: _ => (some (a : ℤ), some (b : ℤ))
        | [a] => (some (a : ℤ), some ((a : ℤ) + 2))
        | [] => (some (0 : ℤ), some (2 : ℤ))).1 = some a →
      (match toks with
        | a :: b :: _ => (some (a : ℤ), some (b : ℤ))
        | [a] => (some (a : ℤ), some ((a : ℤ) + 2))
        | [] => (some (0 : ℤ), some (2 : ℤ))).2 = some b → a + 1 ≤ b := by
  intro a b h1 h2
  rcases toks with _ | ⟨x, _ | ⟨y, rest⟩⟩
  · have ha : a = 0 := by simpa using h1.symm
    have hb : b = 2 := by simpa using h2.symm
    rw [ha, hb]; norm_num
  · have ha : a = (x : ℤ) := by simpa using h1.symm
    have hb : b = (x : ℤ) + 2 := by simpa using h2.symm
    rw [ha, hb]; omega
  · have hxy : x + 1 ≤ y := hord x y rest rfl
    have ha : a = (x : ℤ) := by simpa using h1.symm
    have hb : b = (y : ℤ) := by simpa using h2.symm
    rw [ha, hb]
    exact_mod_cast hxy

lemma extract_experience_ok {r : JobRecord} (h : expTokensOkB r = true) :
    ∀ a b, (extract_experience_range r.experience).1 = some a →
      (extract_experience_range r.experience).2 = some b → a + 1 ≤ b := by
  intro a b h1 h2
  rw [expTokensOkB] at h
  rcases hs : r.experience with _ | s
  · rw [hs] at h1
    simp [extract_experience_range] at h1
  · rw [hs] at h h1 h2
    dsimp only at h
    refine experience_pair_of_tokens (intTokens (pyLower s)) ?_ a b h1 h2
    intro x y rest heq
    rw [heq] at h
    exact of_decide_eq_true h

lemma rand_salary_ok {u1 u2 : ℚ} (h1 : 0 ≤ u1) (h2 : u1 < 1) (h3 : 0 ≤ u2) (h4 : u2 < 1) :
    uniformQ u1 3 15 ≤ uniformQ u1 3 15 * uniformQ u2 (6 / 5) 2 := by
  rw [uniformQ, uniformQ]
  nlinarith

lemma choice_gap_ge_two {w : ℚ} (h3 : 0 ≤ w) (h4 : w < 1) :
    2 ≤ choiceQ [2, 3, 4, 5] w := by
  rw [choiceQ]
  have hlen : ((([2, 3, 4, 5] : List ℤ).length : ℕ) : ℚ) = 4 := by norm_num
  rw [hlen]
  have h5 : (0 : ℤ) ≤ ⌊w * 4⌋ := Int.floor_nonneg.mpr (by positivity)
  have h6 : ⌊w * (4 : ℚ)⌋ < 4 := by
    apply Int.floor_lt.mpr
    push_cast
    nlinarith
  have h7 : (⌊w * (4 : ℚ)⌋).toNat < 4 := by omega
  set k := (⌊w * (4 : ℚ)⌋).toNat with hk
  interval_cases k <;> decide

/-- The salary fields set by the salary stage satisfy `salaryMin ≤ salaryMax`
under the amended premise; the stages after it do not touch them. -/
lemma salInvB_salary_stage (u : ℕ → ℚ) (hu : ∀ n, 0 ≤ u n ∧ u n < 1)
    (off n : ℕ) (hasSal : Bool) (l : List JobRecord)
    (hl : l.all salTokensOkB = true) {r : JobRecord}
    (hr : r ∈ salary_stage u off n hasSal l) : salInvB r = true := by
  rw [salary_stage] at hr
  rw [List.all_eq_true] at hl
  split at hr
  · obtain ⟨r0, hr0, rfl⟩ := List.mem_map.mp hr
    rw [salInvB]
    rcases hmin : (extract_salary_range r0.salary).1 with _ | a
    · simp [hmin]
    · rcases hmax : (extract_salary_range r0.salary).2 with _ | b
      · simp [hmin, hmax]
      · simp only [hmin, hmax]
        simpa using extract_salary_ok (hl r0 hr0) a b hmin hmax
  · obtain ⟨q, hq, rfl⟩ := List.mem_map.mp hr
    rw [salInvB]
    simpa using rand_salary_ok (hu (off + q.1)).1 (hu (off + q.1)).2
      (hu (off + n + q.1)).1 (hu (off + n + q.1)).2

lemma expInvB_experience_stage (u : ℕ → ℚ) (hu : ∀ n, 0 ≤ u n ∧ u n < 1)
    (off1 n : ℕ) (hasExp : Bool) (l : List JobRecord)
    (hl : l.all expTokensOkB = true) {r : JobRecord}
    (hr : r ∈ experience_stage u off1 n hasExp l) : expInvB r = true := by
  rw [experience_stage] at hr
  rw [List.all_eq_true] at hl
  split at hr
  · obtain ⟨r0, hr0, rfl⟩ := List.mem_map.mp hr
    rw [expInvB]
    rcases hmin : (extract_experience_range r0.experience).1 with _ | a
    · simp [hmin]
    · rcases hmax : (extract_experience_range r0.experience).2 with _ | b
      · simp [hmin, hmax]
      · simp only [hmin, hmax]
        simpa using extract_experience_ok (hl r0 hr0) a b hmin hmax
  · obtain ⟨q, hq, rfl⟩ := List.mem_map.mp hr
    rw [expInvB]
    have hc := choice_gap_ge_two (hu (off1 + n + q.1)).1 (hu (off1 + n + q.1)).2
    dsimp only
    rw [decide_eq_true_eq]
    omega

lemma salInvB_after_exp_stage {u : ℕ → ℚ} {off1 n : ℕ} {hasExp : Bool}
    {l : List JobRecord} (hl : ∀ r ∈ l, salInvB r = true) :
    ∀ r ∈ experience_stage u off1 n hasExp l, salInvB r = true := by
  intro r hr
  rw [experience_stage] at hr
  split at hr
  · obtain ⟨r0, hr0, rfl⟩ := List.mem_map.mp hr
    exact hl r0 hr0
  · obtain ⟨q, hq, rfl⟩ := List.mem_map.mp hr
    exact hl q.2 (mem_withIdx_snd hq)

lemma invs_finish_stage {l : List JobRecord}
    (hl : ∀ r ∈ l, salInvB r = true ∧ expInvB r = true) :
    ∀ r ∈ finish_stage l, salInvB r = true ∧ expInvB r = true := by
  intro r hr
  rw [finish_stage] at hr
  obtain ⟨r0, hr0, rfl⟩ := List.mem_map.mp hr
  exact hl r0 hr0

lemma invs_date_stage {hd : Bool} {now : ℕ} {l : List JobRecord}
    (hl : ∀ r ∈ l, salInvB r = true ∧ expInvB r = true) :
    ∀ r ∈ date_stage hd now l, salInvB r = true ∧ expInvB r = true := by
  intro r hr
  rw [date_stage] at hr
  split at hr
  · exact hl r hr
  · obtain ⟨r0, hr0, rfl⟩ := List.mem_map.mp hr
    exact hl r0 hr0

/-- Claim C1, amended: after normalization every posting with present bounds
satisfies `salaryMin ≤ salaryMax` and `experienceMin + 1 ≤ experienceMax`,
provided each two-token salary field lists its numbers in non-decreasing order
and each two-token experience field gains at least a year from first to second
token — the code keeps two parsed tokens in order of appearance and never
reorders them.  Zero- and one-token fields and the randomized defaults always
satisfy the invariants. -/
theorem c1_normalizer_range_invariants (u : ℕ → ℚ) (hu : ∀ n, 0 ≤ u n ∧ u n < 1)
    (off now : ℕ) (records : List JobRecord)
    (hsal : records.all salTokensOkB = true) (hexp : records.all expTokensOkB = true) :
    normInvariantsB (process_jobs u off now records).1 = true := by
  have hsal1 : (title_stage records).all salTokensOkB = true := by
    rw [title_stage, List.all_map]
    rw [List.all_eq_true] at hsal ⊢
    intro r hr
    exact hsal r hr
  have hexp1 : (title_stage records).all expTokensOkB = true := by
    rw [title_stage, List.all_map]
    rw [List.all_eq_true] at hexp ⊢
    intro r hr
    exact hexp r hr
  have hexp2 : ∀ (hasSal : Bool),
      (salary_stage u off records.length hasSal (title_stage records)).all expTokensOkB
        = true := by
    intro hasSal
    rw [salary_stage]
    rw [List.all_eq_true] at hexp1
    split
    · rw [List.all_eq_true]
      intro x hx
      obtain ⟨r, hr, rfl⟩ := List.mem_map.mp hx
      exact hexp1 r hr
    · rw [List.all_eq_true]
      intro x hx
      obtain ⟨q, hq, rfl⟩ := List.mem_map.mp hx
      exact hexp1 q.2 (mem_withIdx_snd hq)
  rw [normInvariantsB, List.all_eq_true]
  intro r hr
  simp only [process_jobs] at hr
  rw [Bool.and_eq_true]
  refine invs_date_stage (fun r2 hr2 => ?_) r hr
  refine invs_finish_stage (fun r3 hr3 => ?_) r2 hr2
  constructor
  · refine salInvB_after_exp_stage (fun r4 hr4 => ?_) r3 hr3
    exact salInvB_salary_stage u hu off records.length _ (title_stage records) hsal1 hr4
  · exact expInvB_experience_stage u hu _ records.length _ _ (hexp2 _) hr3

/-- Witness for C1: a record whose two-token fields are well ordered. -/
theorem c1_witness : normInvariantsB (process_jobs uHalf 0 0 [c1WitRec]).1 = true :=
  c1_normalizer_range_invariants uHalf (fun n => by rw [uHalf]; norm_num) 0 0 [c1WitRec]
    (by decide) (by decide)

/-- Counterexample to C1 as stated: a salary field "20-10 lakhs" yields the
pair (20, 10) and an experience field "5-3 years" the pair (5, 3), violating
both invariants, so the claim fails exactly on two-token records with
decreasing tokens. -/
theorem c1_counterexample :
    ((process_jobs uHalf 0 0 [c1CexRec]).1.map fun r =>
        (r.salary_min, r.salary_max, r.exp_min, r.exp_max))
      = [(some 20, some 10, some 5, some 3)] ∧
    normInvariantsB (process_jobs uHalf 0 0 [c1CexRec]).1 = false := by
  exact ⟨by decide, by decide⟩

/-! ### The insertion sort `sortDescBy`: order, tie behaviour, permutation

These lemmas characterize the executable refinement (the exact model of
Python's stable `sorted(..., reverse=True)`, and one admissible outcome of
the unstable `sort_values`); the claims about the unstable pandas path do not
rely on its tie order. -/

section SortLemmas

variable {α : Type} {κ : Type} [LinearOrder κ] (key : α → κ) (pos : α → ℕ)

lemma mem_insDescBy {x y : α} : ∀ {l : List α}, y ∈ insDescBy key x l ↔ y = x ∨ y ∈ l := by
  intro l
  induction l with
  | nil => simp [insDescBy]
  | cons h t ih =>
    rw [insDescBy]
    split
    · simp [or_comm, or_assoc, or_left_comm]
    · rw [List.mem_cons, List.mem_cons, ih]
      tauto

lemma pairwise_insDescBy {x : α} :
    ∀ {l : List α},
      l.Pairwise (fun a b => key b ≤ key a ∧ (key a = key b → pos a < pos b)) →
      (∀ a ∈ l, pos a < pos x) →
      (insDescBy key x l).Pairwise
        (fun a b => key b ≤ key a ∧ (key a = key b → pos a < pos b)) := by
  intro l
  induction l with
  | nil => intro _ _; simp [insDescBy]
  | cons h t ih =>
    intro hl hx
    rw [List.pairwise_cons] at hl
    rw [insDescBy]
    split
    · next hlt =>
      rw [List.pairwise_cons]
      constructor
      · intro b hb
        rw [List.mem_cons] at hb
        rcases hb with rfl | hb
        · exact ⟨le_of_lt hlt, fun he => absurd he hlt.ne'⟩
        · have hkb : key b ≤ key h := (hl.1 b hb).1
          exact ⟨le_trans hkb (le_of_lt hlt),
            fun he => absurd he (lt_of_le_of_lt hkb hlt).ne'⟩
      · rw [List.pairwise_cons]
        exact ⟨hl.1, hl.2⟩
    · next hge =>
      rw [List.pairwise_cons]
      constructor
      · intro b hb
        rw [mem_insDescBy] at hb
        rcases hb with rfl | hb
        · exact ⟨not_lt.mp hge, fun _ => hx h (List.mem_cons_self h t)⟩
        · exact hl.1 b hb
      · exact ih hl.2 fun a ha => hx a (List.mem_cons_of_mem h ha)

lemma pairwise_foldl_insDescBy :
    ∀ (l acc : List α),
      acc.Pairwise (fun a b => key b ≤ key a ∧ (key a = key b → pos a < pos b)) →
      (∀ a ∈ acc, ∀ b ∈ l, pos a < pos b) →
      l.Pairwise (fun a b => pos a < pos b) →
      (l.foldl (fun acc x => insDescBy key x acc) acc).Pairwise
        (fun a b => key b ≤ key a ∧ (key a = key b → pos a < pos b)) := by
  intro l
  induction l with
  | nil => intro acc hacc _ _; exact hacc
  | cons b t ih =>
    intro acc hacc hcross hl
    rw [List.pairwise_cons] at hl
    rw [List.foldl_cons]
    refine ih (insDescBy key b acc) ?_ ?_ hl.2
    · exact pairwise_insDescBy key pos hacc
        (fun a ha => hcross a ha b (List.mem_cons_self b t))
    · intro a ha c hc
      rw [mem_insDescBy] at ha
      rcases ha with rfl | ha
      · exact hl.1 c hc
      · exact hcross a ha c (List.mem_cons_of_mem b hc)

lemma pairwise_sortDescBy {l : List α} (h : l.Pairwise (fun a b => pos a < pos b)) :
    (sortDescBy key l).Pairwise
      (fun a b => key b ≤ key a ∧ (key a = key b → pos a < pos b)) := by
  rw [sortDescBy]
  exact pairwise_foldl_insDescBy key pos l [] List.Pairwise.nil (by simp) h

lemma perm_insDescBy (x : α) :
    ∀ (l : List α), List.Perm (insDescBy key x l) (x :: l) := by
  intro l
  induction l with
  | nil => rw [insDescBy]
  | cons h t ih =>
    rw [insDescBy]
    split
    · exact List.Perm.refl _
    · exact (List.Perm.cons h ih).trans (List.Perm.swap x h t)

lemma perm_foldl_insDescBy :
    ∀ (l acc : List α),
      List.Perm (l.foldl (fun acc x => insDescBy key x acc) acc) (l ++ acc) := by
  intro l
  induction l with
  | nil =>
    intro acc
    rw [List.foldl_nil, List.nil_append]
  | cons b t ih =>
    intro acc
    rw [List.foldl_cons]
    refine (ih (insDescBy key b acc)).trans ?_
    have h1 : List.Perm (t ++ insDescBy key b acc) (t ++ b :: acc) :=
      List.Perm.append_left t (perm_insDescBy key b acc)
    exact h1.trans List.perm_middle

lemma perm_sortDescBy (l : List α) : List.Perm (sortDescBy key l) l := by
  rw [sortDescBy]
  have h := perm_foldl_insDescBy key l []
  rwa [List.append_nil] at h

lemma length_sortDescBy (l : List α) : (sortDescBy key l).length = l.length :=
  (perm_sortDescBy key l).length_eq

lemma insDescBy_of_none_lt {x : α} {l : List α} (h : ∀ a ∈ l, ¬ key a < key x) :
    insDescBy key x l = l ++ [x] := by
  induction l with
  | nil => rw [insDescBy]; rfl
  | cons b t ih =>
    rw [insDescBy, if_neg (h b (List.mem_cons_self b t)), List.cons_append]
    rw [ih fun a ha => h a (List.mem_cons_of_mem b ha)]

lemma sortDescBy_of_const {c : κ} :
    ∀ {l : List α}, (∀ a ∈ l, key a = c) → sortDescBy key l = l := by
  have aux : ∀ (l acc : List α), (∀ a ∈ l, key a = c) → (∀ a ∈ acc, key a = c) →
      l.foldl (fun acc x => insDescBy key x acc) acc = acc ++ l := by
    intro l
    induction l with
    | nil =>
      intro acc _ _
      rw [List.foldl_nil, List.append_nil]
    | cons b t ih =>
      intro acc hl hacc
      have hacc2 : ∀ a ∈ acc ++ [b], key a = c := by
        intro a ha
        rw [List.mem_append] at ha
        rcases ha with ha | ha
        · exact hacc a ha
        · rw [List.mem_singleton.mp ha]
          exact hl b (List.mem_cons_self b t)
      rw [List.foldl_cons]
      rw [insDescBy_of_none_lt key (fun a ha => by
        rw [hl b (List.mem_cons_self b t), hacc a ha]
        exact lt_irrefl c)]
      rw [ih (acc ++ [b]) (fun a ha => hl a (List.mem_cons_of_mem b ha)) hacc2]
      simp
  intro l hl
  rw [sortDescBy]
  have h := aux l [] hl (by simp)
  rwa [List.nil_append] at h

end SortLemmas

/-! ### C2: ranking is descending (corrected: tie order is unspecified) -/

lemma get_recommendations_eq (jobs : List JobRecord) (us : List String)
    (loc el : Option String) (smin smax : Option ℚ) (topn : ℕ) :
    get_recommendations jobs us loc el smin smax topn
      = recommendations_from (sortDescBy (fun r : RecRow => r.score)
          (apply_filters loc el smin smax (scored_rows jobs us))) us topn := rfl

lemma dotTfidf_nil_left (vocabL : List String) (docs : List (List String))
    (d : List String) : dotTfidf vocabL docs [] d = 0 := by
  rw [dotTfidf]
  refine Finset.sum_eq_zero fun t _ => ?_
  rw [tfidfWeight, List.count_nil]
  norm_num

lemma cosSim_nil_left (vocabL : List String) (docs : List (List String))
    (d : List String) : cosSim vocabL docs [] d = 0 := by
  rw [cosSim, dotTfidf_nil_left]
  exact zero_div _

lemma scored_rows_empty (jobs : List JobRecord) : scored_rows jobs [] = indexed_rows jobs := by
  simp only [scored_rows, indexed_rows]
  apply List.map_congr_left
  intro p _
  have hq : tokenize (joinSepS " " ([] : List String)) = [] := rfl
  rw [hq, cosSim_nil_left]

lemma mem_withIdx_fst {α : Type} {q : ℕ × α} :
    ∀ {n : ℕ} {l : List α}, q ∈ withIdx n l → n ≤ q.1 := by
  intro n l
  induction l generalizing n with
  | nil => intro h; simp [withIdx] at h
  | cons x xs ih =>
    intro h
    rw [withIdx, List.mem_cons] at h
    rcases h with h | h
    · rw [h]
    · exact le_trans (Nat.le_succ n) (ih h)

lemma pairwise_withIdx {α : Type} :
    ∀ (n : ℕ) (l : List α), (withIdx n l).Pairwise (fun p q => p.1 < q.1) := by
  intro n l
  induction l generalizing n with
  | nil => exact List.Pairwise.nil
  | cons x xs ih =>
    rw [withIdx, List.pairwise_cons]
    exact ⟨fun q hq => lt_of_lt_of_le (Nat.lt_succ_self n) (mem_withIdx_fst hq), ih (n + 1)⟩

lemma location_filter_sublist (loc : Option String) (rows : List RecRow) :
    (location_filter loc rows).Sublist rows := by
  rcases loc with _ | l
  · exact List.Sublist.refl rows
  · rw [location_filter]
    split
    · exact List.Sublist.refl rows
    · split
      · exact List.filter_sublist rows
      · exact List.filter_sublist rows

lemma experience_filter_sublist (el : Option String) (rows : List RecRow) :
    (experience_filter el rows).Sublist rows := by
  rcases el with _ | l
  · exact List.Sublist.refl rows
  · rw [experience_filter]
    split
    · exact List.Sublist.refl rows
    · split
      · exact List.filter_sublist rows
      · exact List.Sublist.refl rows

lemma salary_filter_sublist (smin smax : Option ℚ) (rows : List RecRow) :
    (salary_filter smin smax rows).Sublist rows := by
  rcases smin with _ | a <;> rcases smax with _ | b
  · exact List.Sublist.refl rows
  · exact List.Sublist.refl rows
  · exact List.Sublist.refl rows
  · exact List.filter_sublist rows

lemma apply_filters_sublist (loc el : Option String) (smin smax : Option ℚ)
    (rows : List RecRow) : (apply_filters loc el smin smax rows).Sublist rows := by
  rw [apply_filters]
  exact ((salary_filter_sublist smin smax _).trans
    (experience_filter_sublist el _)).trans (location_filter_sublist loc rows)

/-- Claim C2, amended: for every corpus, skill list, filter set and `top_n`,
and every sort outcome admitted by the contract of
`sort_values(ascending=False)` (a score-descending permutation of the
filtered scored frame — the default `kind='quicksort'` guarantees nothing
more), the returned sequence is sorted by compatibility score in descending
order.  The second half of the claim — equal scores in original corpus order —
is not a property of the program: numpy's introsort is unstable, so the
contract admits outcomes whose ties are in any order (see the
counterexample). -/
theorem c2_recommendations_sorted_desc (jobs : List JobRecord) (us : List String)
    (loc el : Option String) (smin smax : Option ℚ) (topn : ℕ) (sorted : List RecRow)
    (h : descSortOf (apply_filters loc el smin smax (scored_rows jobs us)) sorted) :
    (recommendations_from sorted us topn).Pairwise fun a b => b.score ≤ a.score := by
  rw [recommendations_from, List.pairwise_map]
  exact List.Pairwise.sublist (List.take_sublist topn sorted) h.2

/-- Witness for C2 at the empty corpus: the empty outcome satisfies the sort
contract and the output is descending. -/
theorem c2_witness :
    descSortOf (apply_filters none none none none (scored_rows [] [])) [] ∧
    (recommendations_from [] [] 5).Pairwise fun a b => b.score ≤ a.score :=
  ⟨⟨List.Perm.nil, List.Pairwise.nil⟩,
    c2_recommendations_sorted_desc [] [] none none none none 5 []
      ⟨List.Perm.nil, List.Pairwise.nil⟩⟩

/-- Counterexample to C2 as stated: on a two-posting corpus queried with no
skills both scores are 0, so the contract of the unstable descending sort
admits the outcome that swaps the two rows; its ties are not in corpus order,
hence stable tie order is not guaranteed by the program. -/
theorem c2_counterexample :
    descSortOf (apply_filters none none none none (scored_rows jobsC2 []))
        [⟨1, jobC2b, 0, ""⟩, ⟨0, jobC2a, 0, ""⟩] ∧
    ¬ (recommendations_from [⟨1, jobC2b, 0, ""⟩, ⟨0, jobC2a, 0, ""⟩] [] 10).Pairwise
        (fun a b => a.score = b.score → a.idx < b.idx) := by
  constructor
  · constructor
    · have hrows : apply_filters none none none none (scored_rows jobsC2 [])
          = [⟨0, jobC2a, 0, ""⟩, ⟨1, jobC2b, 0, ""⟩] := by
        rw [scored_rows_empty]
        rfl
      rw [hrows]
      exact List.Perm.swap _ _ _
    · norm_num [List.pairwise_cons]
  · intro hp
    rw [recommendations_from, List.pairwise_map] at hp
    have h01 := (List.pairwise_cons.mp hp).1 ⟨0, jobC2a, 0, ""⟩ (by simp)
    have hlt : (1 : ℕ) < 0 := h01 rfl
    omega

/-! ### C3: empty skill list (corrected) -/

/-- Claim C3, amended: with an empty user skill list, and an engine the
constructor actually built (nonempty fitted vocabulary — with an all-empty
corpus `fit_transform` raises sklearn's empty-vocabulary error instead),
`get_recommendations` raises no error: under every sort outcome admitted by
the unstable descending sort, every returned row has compatibility score 0
and is drawn from the filtered corpus, and the result has
`min top_n filteredCount` rows.  Neither the whole filtered corpus nor its
original order is returned in general: `head(top_n)` truncates, and the
unstable sort leaves the order of the (all-equal) zero scores unspecified. -/
theorem c3_empty_skills (jobs : List JobRecord) (loc el : Option String)
    (smin smax : Option ℚ) (topn : ℕ) (sorted : List RecRow)
    (_hv : buildVocab (jobs.map fun j => tokenize (combine_job_features j)) ≠ [])
    (h : descSortOf (apply_filters loc el smin smax (scored_rows jobs [])) sorted) :
    (∀ r ∈ recommendations_from sorted [] topn,
        r.score = 0 ∧
        (r.idx, r.job) ∈ (apply_filters loc el smin smax (indexed_rows jobs)).map
          fun x => (x.idx, x.job)) ∧
    (recommendations_from sorted [] topn).length
      = min topn (apply_filters loc el smin smax (indexed_rows jobs)).length := by
  rw [scored_rows_empty] at h
  constructor
  · intro r hr
    rw [recommendations_from, List.mem_map] at hr
    obtain ⟨r', hr', rfl⟩ := hr
    have hsorted : r' ∈ sorted := (List.take_sublist topn sorted).subset hr'
    have hFmem : r' ∈ apply_filters loc el smin smax (indexed_rows jobs) :=
      h.1.mem_iff.mpr hsorted
    have hscore : r'.score = 0 := by
      have hidx := (apply_filters_sublist loc el smin smax _).subset hFmem
      rw [indexed_rows] at hidx
      obtain ⟨p, _, rfl⟩ := List.mem_map.mp hidx
      rfl
    exact ⟨hscore, List.mem_map.mpr ⟨r', hFmem, rfl⟩⟩
  · rw [recommendations_from, List.length_map, List.length_take, ← h.1.length_eq]

/-- Witness for C3: a two-posting corpus with real text (nonempty vocabulary),
the identity outcome of the sort, and `top_n = 5`. -/
theorem c3_witness :
    (buildVocab (jobsC2.map fun j => tokenize (combine_job_features j)) ≠ []) ∧
    descSortOf (apply_filters none none none none (scored_rows jobsC2 []))
        (indexed_rows jobsC2) ∧
    ((∀ r ∈ recommendations_from (indexed_rows jobsC2) [] 5,
        r.score = 0 ∧
        (r.idx, r.job) ∈ (apply_filters none none none none (indexed_rows jobsC2)).map
          fun x => (x.idx, x.job)) ∧
      (recommendations_from (indexed_rows jobsC2) [] 5).length
        = min 5 (apply_filters none none none none (indexed_rows jobsC2)).length) := by
  have hdesc : descSortOf (apply_filters none none none none (scored_rows jobsC2 []))
      (indexed_rows jobsC2) := by
    constructor
    · rw [scored_rows_empty]
      exact List.Perm.refl _
    · norm_num [indexed_rows, jobsC2, withIdx, List.pairwise_cons]
  exact ⟨by decide, hdesc,
    c3_empty_skills jobsC2 none none none none 5 (indexed_rows jobsC2) (by decide) hdesc⟩

/-- Counterexample to C3 as stated: with two postings, no filters and
`top_n = 1`, an admissible sort outcome yields one row while the filtered
corpus has two, so the result does not equal the whole filtered corpus. -/
theorem c3_counterexample :
    descSortOf (apply_filters none none none none (scored_rows jobsC2 []))
        (indexed_rows jobsC2) ∧
    (recommendations_from (indexed_rows jobsC2) [] 1).map (fun x => (x.idx, x.job))
      ≠ (apply_filters none none none none (indexed_rows jobsC2)).map
          fun x => (x.idx, x.job) := by
  constructor
  · constructor
    · rw [scored_rows_empty]
      exact List.Perm.refl _
    · norm_num [indexed_rows, jobsC2, withIdx, List.pairwise_cons]
  · intro h
    have hlen := congrArg List.length h
    rw [List.length_map, List.length_map] at hlen
    have h1 : (recommendations_from (indexed_rows jobsC2) [] 1).length = 1 := rfl
    have h2 : (apply_filters none none none none (indexed_rows jobsC2)).length = 2 := rfl
    rw [h1, h2] at hlen
    omega

/-! ### C4: cosine similarity bounds and the zero-query guard -/

lemma one_le_idfWeight (docs : List (List String)) (t : String) :
    1 ≤ idfWeight docs t := by
  rw [idfWeight]
  have h1 : (0 : ℝ) < 1 + (docFreq docs t : ℝ) := by positivity
  have h2 : (docFreq docs t : ℝ) ≤ (docs.length : ℝ) := by
    exact_mod_cast List.countP_le_length _
  have hlog : 0 ≤ Real.log ((1 + (docs.length : ℝ)) / (1 + (docFreq docs t : ℝ))) := by
    apply Real.log_nonneg
    rw [le_div_iff₀ h1]
    linarith
  linarith

lemma tfidfWeight_nonneg (docs : List (List String)) (d : List String) (t : String) :
    0 ≤ tfidfWeight docs d t := by
  rw [tfidfWeight]
  have h := one_le_idfWeight docs t
  have : (0 : ℝ) ≤ (d.count t : ℝ) := Nat.cast_nonneg _
  nlinarith

lemma dotTfidf_nonneg (vocabL : List String) (docs : List (List String))
    (q d : List String) : 0 ≤ dotTfidf vocabL docs q d := by
  rw [dotTfidf]
  exact Finset.sum_nonneg fun t _ =>
    mul_nonneg (tfidfWeight_nonneg docs q t) (tfidfWeight_nonneg docs d t)

lemma dotTfidf_cauchy_schwarz (vocabL : List String) (docs : List (List String))
    (q d : List String) :
    dotTfidf vocabL docs q d ≤
      Real.sqrt (dotTfidf vocabL docs q q) * Real.sqrt (dotTfidf vocabL docs d d) := by
  have h := Real.sum_mul_le_sqrt_mul_sqrt vocabL.toFinset
    (fun t => tfidfWeight docs q t) (fun t => tfidfWeight docs d t)
  rw [dotTfidf, dotTfidf, dotTfidf]
  simpa only [pow_two] using h

lemma normGuard_pos {r : ℝ} (h : 0 ≤ r) : 0 < normGuard r := by
  rw [normGuard]
  split
  · norm_num
  · next hne => exact lt_of_le_of_ne h (Ne.symm hne)

lemma dotTfidf_eq_zero_of_self (vocabL : List String) (docs : List (List String))
    (q : List String) (h : dotTfidf vocabL docs q q = 0) (d : List String) :
    dotTfidf vocabL docs q d = 0 := by
  rw [dotTfidf] at h ⊢
  have hterm := (Finset.sum_eq_zero_iff_of_nonneg
    (fun t _ => mul_self_nonneg (tfidfWeight docs q t))).mp h
  refine Finset.sum_eq_zero fun t ht => ?_
  rw [mul_self_eq_zero.mp (hterm t ht), zero_mul]

/-- Claim C4: for every fitted vocabulary, corpus and query, the cosine
similarity of the query against any document lies in [0, 1]; a query whose
projection onto the vocabulary is the zero vector (no query token occurs in
the vocabulary) yields similarity 0 against every document — the zero norm is
replaced by 1, never divided by. -/
theorem c4_cosine_similarity_bounds (vocabL : List String) (docs : List (List String))
    (q d : List String) :
    (0 ≤ cosSim vocabL docs q d ∧ cosSim vocabL docs q d ≤ 1) ∧
    (vocabL.all (fun t => q.count t == 0) = true → cosSim vocabL docs q d = 0) := by
  constructor
  · constructor
    · rw [cosSim]
      apply div_nonneg (dotTfidf_nonneg vocabL docs q d)
      exact le_of_lt (mul_pos (normGuard_pos (Real.sqrt_nonneg _))
        (normGuard_pos (Real.sqrt_nonneg _)))
    · rw [cosSim]
      by_cases hq : Real.sqrt (dotTfidf vocabL docs q q) = 0
      · have hqq : dotTfidf vocabL docs q q = 0 :=
          le_antisymm (Real.sqrt_eq_zero'.mp hq) (dotTfidf_nonneg vocabL docs q q)
        rw [dotTfidf_eq_zero_of_self vocabL docs q hqq d, zero_div]
        norm_num
      · by_cases hd : Real.sqrt (dotTfidf vocabL docs d d) = 0
        · have hdd : dotTfidf vocabL docs d d = 0 :=
            le_antisymm (Real.sqrt_eq_zero'.mp hd) (dotTfidf_nonneg vocabL docs d d)
          have hsymm : dotTfidf vocabL docs q d = 0 := by
            rw [dotTfidf]
            have h0 := dotTfidf_eq_zero_of_self vocabL docs d hdd q
            rw [dotTfidf] at h0
            rw [← h0]
            exact Finset.sum_congr rfl fun t _ => mul_comm _ _
          rw [hsymm, zero_div]
          norm_num
        · rw [normGuard, if_neg hq, normGuard, if_neg hd]
          have hqpos : 0 < Real.sqrt (dotTfidf vocabL docs q q) :=
            lt_of_le_of_ne (Real.sqrt_nonneg _) (Ne.symm hq)
          have hdpos : 0 < Real.sqrt (dotTfidf vocabL docs d d) :=
            lt_of_le_of_ne (Real.sqrt_nonneg _) (Ne.symm hd)
          rw [div_le_one (mul_pos hqpos hdpos)]
          exact dotTfidf_cauchy_schwarz vocabL docs q d
  · intro hz
    rw [List.all_eq_true] at hz
    have hS : dotTfidf vocabL docs q d = 0 := by
      rw [dotTfidf]
      refine Finset.sum_eq_zero fun t ht => ?_
      have hc : q.count t = 0 := by
        have := hz t (List.mem_toFinset.mp ht)
        simpa using this
      rw [tfidfWeight, hc]
      norm_num
    rw [cosSim, hS, zero_div]

/-- Witness for C4's zero-projection clause: an out-of-vocabulary query
scores 0 against a document. -/
theorem c4_witness : cosSim ["python"] [["python"]] ["rust"] ["python"] = 0 :=
  (c4_cosine_similarity_bounds ["python"] [["python"]] ["rust"] ["python"]).2 (by decide)

/-! ### C8: normalization idempotence (corrected)

The counterexample first: with no `salary`/`experience` columns the ranges are
drawn from the numpy stream, and a second application draws fresh values. -/

/-- Counterexample to C8 as stated: one record with no salary or experience
field; the first pass draws `salary_min = 3` (from draw 0), the second pass
draws `salary_min = 9` (from draw 4), so renormalizing the output changes
it. -/
theorem c8_counterexample :
    (process_jobs uCex (process_jobs uCex 0 0 [emptyRec]).2 0
        (process_jobs uCex 0 0 [emptyRec]).1).1
      ≠ (process_jobs uCex 0 0 [emptyRec]).1 := by
  intro h
  have h1 := congrArg (fun l => l.map fun r => r.salary_min) h
  simp only [process_jobs, title_stage, salary_stage, experience_stage, finish_stage,
    date_stage, withIdx, List.map, List.any, List.length, emptyRec, Option.isSome,
    Bool.or_false, Bool.false_or, if_false, if_true, Bool.false_eq_true, ite_false,
    ite_true] at h1
  norm_num [uCex, uniformQ] at h1

/-! #### Python `str.title()` is idempotent -/

lemma titleAux_ne_nil {b : Bool} {l : List Char} (h : l ≠ []) : titleAux b l ≠ [] := by
  match l with
  | [] => exact absurd rfl h
  | c :: cs =>
    rw [titleAux]
    split
    · exact List.cons_ne_nil _ _
    · exact List.cons_ne_nil _ _

lemma titleAux_idem : ∀ (l : List Char) (b : Bool), titleAux b (titleAux b l) = titleAux b l := by
  intro l
  induction l with
  | nil => intro b; rfl
  | cons c cs ih =>
    intro b
    rw [titleAux]
    by_cases hc : c.isAlpha = true
    · rw [if_pos hc]
      cases b
      · simp only [Bool.false_eq_true, ite_false]
        rw [titleAux, if_pos ((isAlpha_toUpper c).trans hc)]
        simp only [Bool.false_eq_true, ite_false]
        rw [toUpper_toUpper, ih]
      · simp only [ite_true]
        rw [titleAux, if_pos ((isAlpha_toLower c).trans hc)]
        simp only [ite_true]
        rw [toLower_toLower, ih]
    · rw [if_neg hc, titleAux, if_neg hc, ih]

/-! #### `str.strip()`: edge characters and identity on stripped text -/

lemma headOkB_dropWhile (l : List Char) : headOkB (l.dropWhile isSpaceCh) = true := by
  induction l with
  | nil => rfl
  | cons c cs ih =>
    rw [List.dropWhile_cons]
    split
    · exact ih
    · next h =>
      rw [headOkB]
      simpa using h

lemma rstripL_step (c : Char) (cs : List Char) :
    rstripL (c :: cs) =
      if (rstripL cs).isEmpty then (if isSpaceCh c then [] else [c]) else c :: rstripL cs := by
  rw [rstripL, rstripL, List.reverse_cons, List.dropWhile_append]
  have hrev : ((cs.reverse.dropWhile isSpaceCh).reverse).isEmpty
      = (cs.reverse.dropWhile isSpaceCh).isEmpty := by
    cases cs.reverse.dropWhile isSpaceCh <;> simp
  rw [hrev]
  split
  · rw [List.dropWhile_cons]
    split
    · simp
    · simp
  · simp

lemma headOkB_rstripL {l : List Char} (h : headOkB l = true) : headOkB (rstripL l) = true := by
  induction l with
  | nil => rfl
  | cons c cs ih =>
    rw [rstripL_step]
    split
    · split
      · rfl
      · exact h
    · rw [headOkB] at h ⊢
      exact h

lemma lastOkB_rstripL (l : List Char) : lastOkB (rstripL l) = true := by
  rw [lastOkB, rstripL, List.reverse_reverse]
  exact headOkB_dropWhile _

lemma pyStripL_eq_rstrip_dropWhile (l : List Char) :
    pyStripL l = rstripL (l.dropWhile isSpaceCh) := rfl

lemma headOkB_pyStripL (l : List Char) : headOkB (pyStripL l) = true := by
  rw [pyStripL_eq_rstrip_dropWhile]
  exact headOkB_rstripL (headOkB_dropWhile l)

lemma lastOkB_pyStripL (l : List Char) : lastOkB (pyStripL l) = true := by
  rw [pyStripL_eq_rstrip_dropWhile]
  exact lastOkB_rstripL _

lemma dropWhile_of_headOk {l : List Char} (h : headOkB l = true) :
    l.dropWhile isSpaceCh = l := by
  match l with
  | [] => rfl
  | c :: cs =>
    rw [headOkB] at h
    rw [List.dropWhile_cons_of_neg]
    simpa using h

lemma pyStripL_of_edges {t : List Char} (h1 : headOkB t = true) (h2 : lastOkB t = true) :
    pyStripL t = t := by
  rw [pyStripL, dropWhile_of_headOk h1]
  rw [lastOkB] at h2
  rw [dropWhile_of_headOk h2, List.reverse_reverse]

/-! #### The squeezed-and-stripped normal form -/

lemma lastOkB_cons (c : Char) (cs : List Char) :
    lastOkB (c :: cs) = if cs.isEmpty then !isSpaceCh c else lastOkB cs := by
  rw [lastOkB, lastOkB, List.reverse_cons]
  cases hcs : cs.reverse with
  | nil =>
    rw [List.nil_append]
    have : cs = [] := by
      rw [← List.reverse_reverse cs, hcs, List.reverse_nil]
    rw [this]
    rfl
  | cons d ds =>
    have : cs.isEmpty = false := by
      rw [List.isEmpty_eq_false]
      intro hnil
      rw [hnil, List.reverse_nil] at hcs
      exact List.noConfusion hcs
    rw [this, List.cons_append]
    rfl

lemma squeezeAux_of_gj :
    ∀ l : List Char,
      (gjTok l = true → squeezeAux false l = l) ∧
      (gjGap l = true → squeezeAux true l = l) := by
  intro l
  induction l with
  | nil => exact ⟨fun _ => rfl, fun _ => rfl⟩
  | cons c cs ih =>
    constructor
    · intro h
      rw [gjTok] at h
      rw [squeezeAux]
      split
      · next hws =>
        rw [if_pos hws] at h
        rw [Bool.and_eq_true, decide_eq_true_eq] at h
        simp only [Bool.false_eq_true, ite_false, List.singleton_append]
        rw [ih.2 h.2, h.1]
      · next hws =>
        rw [if_neg hws] at h
        rw [ih.1 h]
    · intro h
      rw [gjGap] at h
      rw [Bool.and_eq_true] at h
      rw [squeezeAux]
      have hws : isSpaceCh c = false := by
        cases hx : isSpaceCh c
        · rfl
        · rw [hx] at h
          exact absurd h.1 (by norm_num)
      rw [if_neg (by rw [hws]; exact Bool.false_ne_true)]
      rw [ih.1 h.2]

lemma squeezeL_of_good {l : List Char} (h : goodWsB l = true) : squeezeL l = l := by
  match l with
  | [] => rfl
  | c :: cs =>
    rw [goodWsB, Bool.and_eq_true] at h
    rw [squeezeL, squeezeAux]
    have hws : isSpaceCh c = false := by
      cases hx : isSpaceCh c
      · rfl
      · rw [hx] at h
        exact absurd h.1 (by norm_num)
    rw [if_neg (by rw [hws]; exact Bool.false_ne_true)]
    rw [(squeezeAux_of_gj cs).1 h.2]

lemma gj_lastOk :
    ∀ l : List Char,
      (gjTok l = true → lastOkB l = true ∨ l = []) ∧
      (gjGap l = true → lastOkB l = true ∧ l ≠ []) := by
  intro l
  induction l with
  | nil =>
    refine ⟨fun _ => Or.inr rfl, fun h => ?_⟩
    rw [gjGap] at h
    exact absurd h (by norm_num)
  | cons c cs ih =>
    constructor
    · intro h
      rw [gjTok] at h
      left
      rw [lastOkB_cons]
      split
      · next hemp =>
        rw [List.isEmpty_iff.mp hemp] at h
        split at h
        · rw [gjGap] at h
          rw [Bool.and_eq_true] at h
          exact absurd h.2 (by norm_num)
        · next hws => simpa using hws
      · next hemp =>
        split at h
        · rw [Bool.and_eq_true] at h
          exact ((ih.2 h.2).1)
        · rcases ih.1 h with h2 | h2
          · exact h2
          · rw [h2] at hemp
            exact absurd rfl hemp
    · intro h
      rw [gjGap, Bool.and_eq_true] at h
      refine ⟨?_, List.cons_ne_nil c cs⟩
      rw [lastOkB_cons]
      split
      · exact h.1
      · next hemp =>
        rcases ih.1 h.2 with h2 | h2
        · exact h2
        · rw [h2] at hemp
          exact absurd rfl hemp

lemma goodWs_lastOk {l : List Char} (h : goodWsB l = true) : lastOkB l = true := by
  match l with
  | [] => rfl
  | c :: cs =>
    rw [goodWsB, Bool.and_eq_true] at h
    rw [lastOkB_cons]
    split
    · exact h.1
    · next hemp =>
      rcases (gj_lastOk cs).1 h.2 with h2 | h2
      · exact h2
      · rw [h2] at hemp
        exact absurd rfl hemp

lemma goodWs_headOk {l : List Char} (h : goodWsB l = true) : headOkB l = true := by
  match l with
  | [] => rfl
  | c :: cs =>
    rw [goodWsB, Bool.and_eq_true] at h
    rw [headOkB]
    exact h.1

lemma pyStripL_of_good {l : List Char} (h : goodWsB l = true) : pyStripL l = l :=
  pyStripL_of_edges (goodWs_headOk h) (goodWs_lastOk h)

lemma lastOkB_tail {c : Char} {cs : List Char} (h : lastOkB (c :: cs) = true)
    (hne : cs ≠ []) : lastOkB cs = true := by
  rw [lastOkB_cons] at h
  rwa [if_neg (by simpa using hne)] at h

lemma squeezeAux_good :
    ∀ m : List Char, lastOkB m = true →
      (gjTok (squeezeAux false m) = true) ∧
      (m ≠ [] → gjGap (squeezeAux true m) = true) := by
  intro m
  induction m with
  | nil => exact fun _ => ⟨rfl, fun h => absurd rfl h⟩
  | cons c cs ih =>
    intro hlast
    by_cases hcs : cs = []
    · subst hcs
      have hc : isSpaceCh c = false := by
        rw [lastOkB_cons] at hlast
        simpa using hlast
      constructor
      · rw [squeezeAux, if_neg (by rw [hc]; exact Bool.false_ne_true)]
        rw [gjTok, if_neg (by rw [hc]; exact Bool.false_ne_true)]
        rfl
      · intro _
        rw [squeezeAux, if_neg (by rw [hc]; exact Bool.false_ne_true)]
        rw [gjGap]
        rw [hc]
        rfl
    · have hlast2 : lastOkB cs = true := lastOkB_tail hlast hcs
      have ih2 := ih hlast2
      constructor
      · rw [squeezeAux]
        split
        · simp only [Bool.false_eq_true, ite_false, List.singleton_append]
          rw [gjTok]
          rw [if_pos (by decide)]
          rw [Bool.and_eq_true, decide_eq_true_eq]
          exact ⟨rfl, ih2.2 hcs⟩
        · next hws =>
          rw [gjTok, if_neg hws]
          exact ih2.1
      · intro _
        rw [squeezeAux]
        split
        · simp only [ite_true, List.nil_append]
          exact ih2.2 hcs
        · next hws =>
          rw [gjGap]
          rw [Bool.and_eq_true]
          constructor
          · cases hx : isSpaceCh c
            · rfl
            · exact absurd hx hws
          · exact ih2.1

lemma goodWs_squeeze_strip (l : List Char) : goodWsB (squeezeL (pyStripL l)) = true := by
  have h1 := headOkB_pyStripL l
  have h2 := lastOkB_pyStripL l
  match hm : pyStripL l with
  | [] => rfl
  | c :: cs =>
    rw [hm] at h1 h2
    rw [headOkB] at h1
    rw [squeezeL, squeezeAux]
    rw [if_neg (by simpa using h1)]
    rw [goodWsB, Bool.and_eq_true]
    refine ⟨h1, ?_⟩
    by_cases hcs : cs = []
    · subst hcs
      rfl
    · exact ((squeezeAux_good cs (lastOkB_tail h2 hcs)).1)

lemma gj_titleAux :
    ∀ (l : List Char) (b : Bool),
      (gjTok l = true → gjTok (titleAux b l) = true) ∧
      (gjGap l = true → gjGap (titleAux b l) = true) := by
  intro l
  induction l with
  | nil => exact fun _ => ⟨fun _ => rfl, fun h => h⟩
  | cons c cs ih =>
    intro b
    by_cases hc : c.isAlpha = true
    · have hws : isSpaceCh c = false := notSpace_of_isAlpha hc
      constructor
      · intro h
        rw [gjTok, if_neg (by rw [hws]; exact Bool.false_ne_true)] at h
        rw [titleAux, if_pos hc, gjTok]
        have hws2 : isSpaceCh (if b then c.toLower else c.toUpper) = false := by
          cases b
          · rw [if_neg Bool.false_ne_true, isSpaceCh_toUpper]
            exact hws
          · rw [if_pos rfl, isSpaceCh_toLower]
            exact hws
        rw [if_neg (by rw [hws2]; exact Bool.false_ne_true)]
        exact (ih true).1 h
      · intro h
        rw [gjGap, Bool.and_eq_true] at h
        rw [titleAux, if_pos hc, gjGap, Bool.and_eq_true]
        have hws2 : isSpaceCh (if b then c.toLower else c.toUpper) = false := by
          cases b
          · rw [if_neg Bool.false_ne_true, isSpaceCh_toUpper]
            exact hws
          · rw [if_pos rfl, isSpaceCh_toLower]
            exact hws
        refine ⟨by rw [hws2]; rfl, (ih true).1 h.2⟩
    · constructor
      · intro h
        rw [gjTok] at h
        rw [titleAux, if_neg hc, gjTok]
        split
        · next hws =>
          rw [if_pos hws] at h
          rw [Bool.and_eq_true] at h ⊢
          exact ⟨h.1, (ih false).2 h.2⟩
        · next hws =>
          rw [if_neg hws] at h
          exact (ih false).1 h
      · intro h
        rw [gjGap, Bool.and_eq_true] at h
        rw [titleAux, if_neg hc, gjGap, Bool.and_eq_true]
        exact ⟨h.1, (ih false).1 h.2⟩

lemma goodWs_titleAux {l : List Char} (h : goodWsB l = true) (b : Bool) :
    goodWsB (titleAux b l) = true := by
  match l with
  | [] => rfl
  | c :: cs =>
    rw [goodWsB, Bool.and_eq_true] at h
    by_cases hc : c.isAlpha = true
    · rw [titleAux, if_pos hc, goodWsB, Bool.and_eq_true]
      have hws2 : isSpaceCh (if b then c.toLower else c.toUpper) = false := by
        cases b
        · rw [if_neg Bool.false_ne_true, isSpaceCh_toUpper]
          exact notSpace_of_isAlpha hc
        · rw [if_pos rfl, isSpaceCh_toLower]
          exact notSpace_of_isAlpha hc
      exact ⟨by rw [hws2]; rfl, (gj_titleAux cs true).1 h.2⟩
    · rw [titleAux, if_neg hc, goodWsB, Bool.and_eq_true]
      exact ⟨h.1, (gj_titleAux cs false).1 h.2⟩

lemma clean_job_title_idem (o : Option String) :
    clean_job_title (some (clean_job_title o)) = clean_job_title o := by
  rcases o with _ | s
  · show clean_job_title (some "Not Specified") = "Not Specified"
    decide
  · have hmid : goodWsB (squeezeL (pyStripL s.data)) = true := goodWs_squeeze_strip s.data
    have ht : goodWsB (titleAux false (squeezeL (pyStripL s.data))) = true :=
      goodWs_titleAux hmid false
    show pyTitle ⟨squeezeL (pyStripL (titleAux false (squeezeL (pyStripL s.data))))⟩
      = pyTitle ⟨squeezeL (pyStripL s.data)⟩
    rw [pyStripL_of_good ht, squeezeL_of_good ht]
    show (⟨titleAux false (titleAux false (squeezeL (pyStripL s.data)))⟩ : String) = _
    rw [titleAux_idem]
    rfl

/-! #### `str.title()` head, tail, case and delimiter behaviour -/

lemma titleAux_cons_eq (b : Bool) (c : Char) (cs : List Char) :
    titleAux b (c :: cs)
      = (if c.isAlpha then if b then c.toLower else c.toUpper else c)
        :: titleAux c.isAlpha cs := by
  by_cases hc : c.isAlpha = true
  · rw [titleAux, if_pos hc, if_pos hc, hc]
  · have hcf : c.isAlpha = false := by
      cases hx : c.isAlpha
      · rfl
      · exact absurd hx hc
    rw [titleAux, if_neg hc, if_neg hc, hcf]

lemma isSpaceCh_titleChar (b : Bool) (c : Char) :
    isSpaceCh (if c.isAlpha then if b then c.toLower else c.toUpper else c) = isSpaceCh c := by
  split
  · cases b
    · rw [if_neg Bool.false_ne_true, isSpaceCh_toUpper]
    · rw [if_pos rfl, isSpaceCh_toLower]
  · rfl

lemma isDelimCh_titleChar (b : Bool) (c : Char) :
    isDelimCh (if c.isAlpha then if b then c.toLower else c.toUpper else c) = isDelimCh c := by
  split
  · cases b
    · rw [if_neg Bool.false_ne_true, isDelimCh_toUpper]
    · rw [if_pos rfl, isDelimCh_toLower]
  · rfl

lemma toLower_titleChar (b : Bool) (c : Char) :
    Char.toLower (if c.isAlpha then if b then c.toLower else c.toUpper else c)
      = Char.toLower c := by
  split
  · cases b
    · rw [if_neg Bool.false_ne_true, toLower_toUpper]
    · rw [if_pos rfl, toLower_toLower]
  · rfl

lemma headOkB_titleAux : ∀ (l : List Char) (b : Bool), headOkB l = true →
    headOkB (titleAux b l) = true := by
  intro l b h
  match l with
  | [] => rfl
  | c :: cs =>
    have h' : (!isSpaceCh c) = true := h
    rw [titleAux_cons_eq]
    show (!isSpaceCh (if c.isAlpha then if b then c.toLower else c.toUpper else c)) = true
    rw [isSpaceCh_titleChar]
    exact h'

lemma lastOkB_titleAux : ∀ (l : List Char) (b : Bool), lastOkB l = true →
    lastOkB (titleAux b l) = true := by
  intro l
  induction l with
  | nil => intro b _; rfl
  | cons c cs ih =>
    intro b h
    by_cases hcs : cs = []
    · subst hcs
      have h' : (!isSpaceCh c) = true := by
        rw [lastOkB_cons] at h
        exact h
      rw [titleAux_cons_eq]
      show (!isSpaceCh (if c.isAlpha then if b then c.toLower else c.toUpper else c)) = true
      rw [isSpaceCh_titleChar]
      exact h'
    · have h2 : lastOkB cs = true := lastOkB_tail h hcs
      rw [titleAux_cons_eq, lastOkB_cons]
      rw [if_neg (by simpa using titleAux_ne_nil hcs)]
      exact ih c.isAlpha h2

lemma pyLowerL_titleAux : ∀ (l : List Char) (b : Bool), pyLowerL (titleAux b l) = pyLowerL l := by
  intro l
  induction l with
  | nil => intro b; rfl
  | cons c cs ih =>
    intro b
    rw [titleAux_cons_eq]
    simp only [pyLowerL, List.map_cons]
    have hcs := ih c.isAlpha
    simp only [pyLowerL] at hcs
    rw [hcs, toLower_titleChar]

lemma noDelim_titleAux : ∀ (l : List Char) (b : Bool), noDelimB l = true →
    noDelimB (titleAux b l) = true := by
  intro l
  induction l with
  | nil => intro b _; rfl
  | cons c cs ih =>
    intro b h
    rw [noDelimB, List.all_cons, Bool.and_eq_true] at h
    rw [titleAux_cons_eq, noDelimB, List.all_cons, Bool.and_eq_true]
    refine ⟨?_, ih c.isAlpha h.2⟩
    rw [isDelimCh_titleChar]
    exact h.1

lemma noDelim_pyStripL {l : List Char} (h : noDelimB l = true) :
    noDelimB (pyStripL l) = true := by
  rw [noDelimB, List.all_eq_true] at h ⊢
  intro c hc
  apply h
  rw [pyStripL, List.mem_reverse] at hc
  have hc2 := (List.dropWhile_sublist isSpaceCh).subset hc
  rw [List.mem_reverse] at hc2
  exact (List.dropWhile_sublist isSpaceCh).subset hc2

lemma pyStripL_cons_space (t : List Char) : pyStripL (' ' :: t) = pyStripL t := rfl

lemma clean_token_fixed (p0 : List Char) :
    pyTitleL (pyStripL (pyTitleL (pyStripL p0))) = pyTitleL (pyStripL p0) := by
  have h1 : headOkB (pyTitleL (pyStripL p0)) = true :=
    headOkB_titleAux (pyStripL p0) false (headOkB_pyStripL p0)
  have h2 : lastOkB (pyTitleL (pyStripL p0)) = true :=
    lastOkB_titleAux (pyStripL p0) false (lastOkB_pyStripL p0)
  rw [pyStripL_of_edges h1 h2]
  exact titleAux_idem _ false

/-! #### `re.split` on the delimiter class, and skills idempotence -/

lemma splitOnPred_ne_nil (p : Char → Bool) (l : List Char) : splitOnPred p l ≠ [] := by
  induction l with
  | nil => exact List.cons_ne_nil _ _
  | cons c cs ih =>
    rw [splitOnPred]
    split
    · exact List.cons_ne_nil _ _
    · cases h : splitOnPred p cs with
      | nil => exact absurd h ih
      | cons x xs => simp

lemma mem_splitOnPred_clean {p : Char → Bool} :
    ∀ {l piece : List Char}, piece ∈ splitOnPred p l → piece.all (fun c => !p c) = true := by
  intro l
  induction l with
  | nil =>
    intro piece h
    rw [splitOnPred, List.mem_singleton] at h
    rw [h]
    rfl
  | cons c cs ih =>
    intro piece h
    by_cases hc : p c = true
    · rw [splitOnPred, if_pos hc, List.mem_cons] at h
      rcases h with h | h
      · rw [h]
        rfl
      · exact ih h
    · have hcf : p c = false := by
        cases hx : p c
        · rfl
        · exact absurd hx hc
      rw [splitOnPred, if_neg hc] at h
      cases hsp : splitOnPred p cs with
      | nil => exact absurd hsp (splitOnPred_ne_nil p cs)
      | cons x xs =>
        rw [hsp, List.modifyHead_cons, List.mem_cons] at h
        rcases h with h | h
        · rw [h, List.all_cons, Bool.and_eq_true]
          refine ⟨by rw [hcf]; rfl, ih ?_⟩
          rw [hsp]
          exact List.mem_cons_self x xs
        · exact ih (by rw [hsp]; exact List.mem_cons_of_mem x h)

lemma splitOnPred_append_clean {p : Char → Bool} : ∀ a : List Char,
    a.all (fun c => !p c) = true → ∀ l : List Char,
    splitOnPred p (a ++ l) = (splitOnPred p l).modifyHead fun x => a ++ x := by
  intro a
  induction a with
  | nil =>
    intro _ l
    rw [List.nil_append]
    cases h : splitOnPred p l with
    | nil => rfl
    | cons x xs => simp
  | cons d a' ih =>
    intro ha l
    rw [List.all_cons, Bool.and_eq_true] at ha
    have hd : p d = false := by
      cases hx : p d with
      | false => rfl
      | true =>
        rw [hx] at ha
        exact absurd ha.1 (by norm_num)
    rw [List.cons_append, splitOnPred, if_neg (by rw [hd]; exact Bool.false_ne_true)]
    rw [ih ha.2 l]
    cases splitOnPred p l with
    | nil => rfl
    | cons x xs => simp

lemma splitOnPred_comma_space (l : List Char) :
    splitOnPred isDelimCh (", ".data ++ l)
      = [] :: (splitOnPred isDelimCh l).modifyHead fun x => ' ' :: x := by
  show splitOnPred isDelimCh (',' :: ' ' :: l) = _
  rw [splitOnPred, if_pos (by decide), splitOnPred, if_neg (by decide)]

lemma splitOnPred_join : ∀ (t : List Char) (ts : List (List Char)),
    noDelimB t = true → (∀ x ∈ ts, noDelimB x = true) →
    splitOnPred isDelimCh (joinSepL (", ".data) (t :: ts))
      = t :: ts.map fun x => ' ' :: x := by
  intro t ts
  induction ts generalizing t with
  | nil =>
    intro ht _
    show splitOnPred isDelimCh t = [t]
    have h := splitOnPred_append_clean t ht []
    rw [List.append_nil] at h
    rw [h]
    show [t ++ []] = [t]
    rw [List.append_nil]
  | cons t2 ts' ih =>
    intro ht hts
    show splitOnPred isDelimCh (t ++ ", ".data ++ joinSepL (", ".data) (t2 :: ts'))
        = t :: (t2 :: ts').map fun x => ' ' :: x
    rw [List.append_assoc, splitOnPred_append_clean t ht, splitOnPred_comma_space,
      ih t2 (hts t2 (List.mem_cons_self t2 ts')) fun x hx => hts x (List.mem_cons_of_mem t2 hx)]
    simp only [List.modifyHead_cons, List.map_cons, List.append_nil]

lemma clean_skills_some (s : String) :
    clean_skills (some s)
      = ⟨joinSepL (", ".data)
          (((splitOnPred isDelimCh s.data).map fun t => pyTitleL (pyStripL t)).filter
            fun t => 1 < t.length)⟩ := rfl

lemma clean_skills_join : ∀ kept : List (List Char),
    (∀ k ∈ kept, noDelimB k = true) →
    (∀ k ∈ kept, pyTitleL (pyStripL k) = k) →
    (∀ k ∈ kept, 1 < k.length) →
    clean_skills (some ⟨joinSepL (", ".data) kept⟩) = ⟨joinSepL (", ".data) kept⟩ := by
  intro kept hnd hfix hlen
  cases kept with
  | nil => decide
  | cons k0 ks =>
    rw [clean_skills_some]
    rw [show (⟨joinSepL (", ".data) (k0 :: ks)⟩ : String).data
        = joinSepL (", ".data) (k0 :: ks) from rfl]
    rw [splitOnPred_join k0 ks (hnd k0 (List.mem_cons_self k0 ks))
      fun x hx => hnd x (List.mem_cons_of_mem k0 hx)]
    have htoks : ((k0 :: ks.map fun x => ' ' :: x).map fun t => pyTitleL (pyStripL t))
        = k0 :: ks := by
      rw [List.map_cons, List.map_map]
      congr 1
      · exact hfix k0 (List.mem_cons_self k0 ks)
      · have hcong : ∀ a ∈ ks,
            ((fun t => pyTitleL (pyStripL t)) ∘ fun x => ' ' :: x) a = id a := by
          intro a ha
          show pyTitleL (pyStripL (' ' :: a)) = a
          rw [pyStripL_cons_space]
          exact hfix a (List.mem_cons_of_mem k0 ha)
        rw [List.map_congr_left hcong, List.map_id]
    rw [htoks]
    have hfil : ((k0 :: ks).filter fun t => 1 < t.length) = k0 :: ks := by
      rw [List.filter_eq_self]
      intro a ha
      exact decide_eq_true (hlen a ha)
    rw [hfil]

lemma clean_skills_idem (o : Option String) :
    clean_skills (some (clean_skills o)) = clean_skills o := by
  rcases o with _ | s
  · decide
  · rw [clean_skills_some s]
    apply clean_skills_join
    · intro k hk
      rcases List.mem_map.mp (List.mem_filter.mp hk).1 with ⟨p0, hp0, hfp0⟩
      rw [← hfp0]
      exact noDelim_titleAux _ false (noDelim_pyStripL (mem_splitOnPred_clean hp0))
    · intro k hk
      rcases List.mem_map.mp (List.mem_filter.mp hk).1 with ⟨p0, _, hfp0⟩
      rw [← hfp0]
      exact clean_token_fixed p0
    · intro k hk
      exact of_decide_eq_true (List.mem_filter.mp hk).2

/-! #### Location idempotence -/

lemma pyLower_pyTitle (t : String) : pyLower (pyTitle t) = pyLower t := by
  show (⟨pyLowerL (titleAux false t.data)⟩ : String) = ⟨pyLowerL t.data⟩
  rw [pyLowerL_titleAux t.data false]

lemma pyStrip_title_strip (s : String) :
    pyStrip (pyTitle (pyStrip s)) = pyTitle (pyStrip s) := by
  show (⟨pyStripL (titleAux false (pyStripL s.data))⟩ : String)
      = ⟨titleAux false (pyStripL s.data)⟩
  rw [pyStripL_of_edges (headOkB_titleAux (pyStripL s.data) false (headOkB_pyStripL s.data))
    (lastOkB_titleAux (pyStripL s.data) false (lastOkB_pyStripL s.data))]

lemma clean_location_some_found {s : String} {p : String × String}
    (hf : cityPairs.find? (fun q => strContains (pyLower (pyStrip s)) q.1) = some p) :
    clean_location (some s) = p.2 := by
  show (match cityPairs.find? (fun q => strContains (pyLower (pyStrip s)) q.1) with
        | some q => q.2
        | none => pyTitle (pyStrip s)) = p.2
  rw [hf]

lemma clean_location_some_notfound {s : String}
    (hf : cityPairs.find? (fun q => strContains (pyLower (pyStrip s)) q.1) = none) :
    clean_location (some s) = pyTitle (pyStrip s) := by
  show (match cityPairs.find? (fun q => strContains (pyLower (pyStrip s)) q.1) with
        | some q => q.2
        | none => pyTitle (pyStrip s)) = pyTitle (pyStrip s)
  rw [hf]

lemma clean_location_idem (o : Option String) :
    clean_location (some (clean_location o)) = clean_location o := by
  rcases o with _ | s
  · decide
  · cases hf : cityPairs.find? (fun q => strContains (pyLower (pyStrip s)) q.1) with
    | some p =>
      rw [clean_location_some_found hf]
      have hmem : p ∈ cityPairs := List.mem_of_find?_eq_some hf
      simp only [cityPairs, List.mem_cons, List.not_mem_nil, or_false] at hmem
      rcases hmem with rfl | rfl | rfl | rfl | rfl | rfl | rfl | rfl | rfl <;> decide
    | none =>
      rw [clean_location_some_notfound hf]
      have hf2 : cityPairs.find?
          (fun q => strContains (pyLower (pyStrip (pyTitle (pyStrip s)))) q.1) = none := by
        rw [pyStrip_title_strip, pyLower_pyTitle]
        exact hf
      rw [clean_location_some_notfound hf2, pyStrip_title_strip]
      show (⟨titleAux false (titleAux false (pyStripL s.data))⟩ : String)
          = pyTitle (pyStrip s)
      rw [titleAux_idem]
      rfl

/-! #### Stage shapes and idempotence of `process_jobs` -/

lemma salary_stage_true (u : ℕ → ℚ) (off n : ℕ) (l : List JobRecord) :
    salary_stage u off n true l
      = l.map fun r => { r with salary_min := (extract_salary_range r.salary).1,
                                salary_max := (extract_salary_range r.salary).2 } := rfl

lemma experience_stage_true (u : ℕ → ℚ) (off1 n : ℕ) (l : List JobRecord) :
    experience_stage u off1 n true l
      = l.map fun r => { r with exp_min := (extract_experience_range r.experience).1,
                                exp_max := (extract_experience_range r.experience).2 } := rfl

lemma date_stage_true (now : ℕ) (l : List JobRecord) : date_stage true now l = l := rfl

lemma date_stage_false (now : ℕ) (l : List JobRecord) :
    date_stage false now l = l.map fun r => { r with posted_date := some now } := rfl

lemma pass_maps (u : ℕ → ℚ) (off n off1 : ℕ) (l : List JobRecord) :
    finish_stage (experience_stage u off1 n true (salary_stage u off n true (title_stage l)))
      = l.map passRec := by
  rw [title_stage, salary_stage_true, experience_stage_true, finish_stage,
    List.map_map, List.map_map, List.map_map]
  exact List.map_congr_left fun r _ => rfl

lemma passRec_idem (r : JobRecord) : passRec (passRec r) = passRec r := by
  simp only [passRec]
  rw [clean_job_title_idem, clean_skills_idem, clean_location_idem]

lemma passRec_date (x : JobRecord) (v : Option ℕ) :
    passRec { x with posted_date := v } = { passRec x with posted_date := v } := rfl

lemma any_map_congr {α : Type} (l : List α) (f : α → α) (p : α → Bool)
    (h : ∀ r, p (f r) = p r) : (l.map f).any p = l.any p := by
  induction l with
  | nil => rfl
  | cons x xs ih => rw [List.map_cons, List.any_cons, List.any_cons, h x, ih]

lemma ne_nil_of_any {α : Type} {l : List α} {p : α → Bool} (h : l.any p = true) :
    l ≠ [] := by
  intro hnil
  rw [hnil] at h
  simp at h

lemma any_posted_of_map_date (now : ℕ) (l : List JobRecord) (h : l ≠ []) :
    ((l.map fun r => { r with posted_date := some now }).any
      fun r => r.posted_date.isSome) = true := by
  cases l with
  | nil => exact absurd rfl h
  | cons x xs =>
    rw [List.map_cons, List.any_cons, Bool.or_eq_true]
    left
    rfl

/-- C8 (amended): the Corpus Normalizer is idempotent on its own output
provided the raw corpus carries both a salary and an experience column (some
record has each).  `process_jobs` then takes its deterministic extraction
branches, every per-field cleaner is a fixed point on its own output, and
`posted_date` is present after the first pass, so the second pass changes
nothing.  Without those columns the stages redraw random defaults and a
second pass generally changes the table (see the counterexample). -/
theorem c8_normalize_idem (u1 u2 : ℕ → ℚ) (o1 o2 now1 now2 : ℕ)
    (records : List JobRecord)
    (hs : (records.any fun r => r.salary.isSome) = true)
    (he : (records.any fun r => r.experience.isSome) = true) :
    (process_jobs u2 o2 now2 (process_jobs u1 o1 now1 records).1).1
      = (process_jobs u1 o1 now1 records).1 := by
  simp only [process_jobs]
  rw [hs, he, pass_maps]
  cases hD : records.any fun r => r.posted_date.isSome with
  | true =>
    rw [date_stage_true,
      any_map_congr records passRec (fun r => r.salary.isSome) fun r => rfl,
      any_map_congr records passRec (fun r => r.experience.isSome) fun r => rfl,
      any_map_congr records passRec (fun r => r.posted_date.isSome) fun r => rfl,
      hs, he, hD, pass_maps, date_stage_true, List.map_map]
    exact List.map_congr_left fun r _ => passRec_idem r
  | false =>
    have hne : records.map passRec ≠ [] := by
      simp only [ne_eq, List.map_eq_nil_iff]
      exact ne_nil_of_any hs
    rw [date_stage_false,
      any_posted_of_map_date now1 (records.map passRec) hne,
      any_map_congr (records.map passRec) (fun r => { r with posted_date := some now1 })
        (fun r => r.salary.isSome) fun r => rfl,
      any_map_congr records passRec (fun r => r.salary.isSome) fun r => rfl,
      any_map_congr (records.map passRec) (fun r => { r with posted_date := some now1 })
        (fun r => r.experience.isSome) fun r => rfl,
      any_map_congr records passRec (fun r => r.experience.isSome) fun r => rfl,
      hs, he, pass_maps, date_stage_true]
    have hid : ∀ x ∈ (records.map passRec).map fun r => { r with posted_date := some now1 },
        passRec x = id x := by
      intro x hx
      rcases List.mem_map.mp hx with ⟨y, hy, rfl⟩
      rcases List.mem_map.mp hy with ⟨r, _, rfl⟩
      show passRec { passRec r with posted_date := some now1 }
          = { passRec r with posted_date := some now1 }
      rw [passRec_date, passRec_idem]
    rw [List.map_congr_left hid, List.map_id]

/-- Witness for C8: a raw corpus carrying both a salary and an experience
column satisfies the hypotheses, and a second normalization pass leaves its
normalized table unchanged. -/
theorem c8_witness :
    ((c8recs.any fun r => r.salary.isSome) = true) ∧
    ((c8recs.any fun r => r.experience.isSome) = true) ∧
    (process_jobs uHalf 0 0 (process_jobs uHalf 0 0 c8recs).1).1
      = (process_jobs uHalf 0 0 c8recs).1 :=
  ⟨by decide, by decide, c8_normalize_idem uHalf uHalf 0 0 0 0 c8recs (by decide) (by decide)⟩
